import Mathlib

/-!
# Verification of the keras-js execution engine (`src/Model.js`)

This file gives a shallow embedding, in Lean 4, of the execution engine of the
keras-js `Model` class: graph construction for Sequential models, weight
binding, the resource-transfer rules applied before a layer call, the
recursive DAG traversal driving `predict`, input validation, and the
artifact-loading interrupt logic.  Layer numeric kernels and the `Tensor`
class internals live outside the embedded source slice and are modelled at
their interface, following the specification's own scoping.

The JavaScript traversal is `async`, but every layer call is synchronous and
the cooperative interleaving never runs two branches simultaneously; the
embedding therefore models `Promise.all(nodes.map(...))` as left-to-right
sequential processing of the branch list, which is one admissible
interleaving, and adds an explicit fuel parameter in place of the source's
unbounded recursion (which terminates on acyclic graphs).
-/

/-- Host-side tensor value, as handed between layers during traversal.
Modelled from the spec: the `Tensor` class itself is outside the embedded
source slice; the spec (§3) describes it as a flat numeric buffer plus a
shape, optionally marked as living on the accelerated (weblas/pipeline)
backend together with an `actualShape` used by that representation.
Float32 numeric contents are modelled as integers; no claim in this
development depends on float arithmetic. -/
structure Tensor where
  data : List Int
  shape : List Nat
  fromPipeline : Bool
  actualShape : List Nat
deriving Repr, DecidableEq

/-- Source expression `new Tensor(x.tensor.data, x.tensor.shape)` — a fresh host tensor holding
a copy of the buffer.  Modelled from the spec: a deep copy of the buffer on
the Host backend (§4.3 rule 2); the fresh tensor does not carry the pipeline
marker. -/
def Tensor.hostCopy (x : Tensor) : Tensor :=
  { data := x.data, shape := x.shape, fromPipeline := false, actualShape := [] }

/-- Source expression `xNew.copyFromWeblasTensor(x.weblasTensor)` followed by restoring
`_fromPipeline` and `_actualShape` — a duplicate made at the accelerated
backend level.  Modelled from the spec (§4.3 rule 3). -/
def Tensor.weblasCopy (x : Tensor) : Tensor :=
  { data := x.data, shape := x.shape, fromPipeline := true,
    actualShape := x.actualShape }

/-- Per-layer mutable runtime state (`layer.hasResult`, `layer.visited`,
`layer.result` in the source). -/
structure LayerState where
  hasResult : Bool
  visited : Bool
  result : Tensor
deriving Repr, DecidableEq

/-- One value of the `modelDAG` object: `{ layerClass, name, inbound,
outbound }`. -/
structure DagNode where
  layerClass : String
  name : String
  inbound : List String
  outbound : List String
deriving Repr, DecidableEq

/-- The engine state mutated by `predict`: the layer map (flags and results),
the `layersWithResults` log (pushed right after each layer call), and the
`isRunning` guard. -/
structure EngineState where
  layers : String → LayerState
  layersWithResults : List String
  isRunning : Bool

/-- A JavaScript value supplied as one entry of `predict`'s `inputData`
argument: either a `Float32Array` buffer or anything else (the code only
distinguishes the two via `instanceof Float32Array`). -/
inductive JSValue where
  | f32 (data : List Int)
  | other
deriving Repr, DecidableEq

/-- Buffer contents of a `JSValue`, for values already known to be
`Float32Array`. -/
def JSValue.bufferData : JSValue → List Int
  | .f32 d => d
  | .other => []

/-- The immutable model environment a `predict` call runs against: the DAG
(an association list mirroring the `modelDAG` object, keyed by layer name),
the input-tensor table (name ↦ shape), the model class discriminator, and
the external layer collaborators — the per-layer compute operation
(`layer.call`, which in JavaScript may throw, hence `Except`), the per-layer
pipeline capability flag (`layer._pipelineEnabled`) and the producer-owned
accelerated→host transfer (`layer.transferFromPipeline`).  Layers are
external collaborators per the spec (§1); the engine only calls them. -/
structure ModelEnv where
  dag : List (String × DagNode)
  inputTensors : List (String × List Nat)
  modelClass : String
  call : String → List Tensor → Except String Tensor
  pipelineEnabled : String → Bool
  transferFromPipeline : String → Tensor → Tensor

/-- Lookup `this.modelDAG[node]` — property lookup on the DAG object.  Absent keys
yield a default node (the source would yield `undefined`; validity
hypotheses keep lookups on present keys). -/
def dagNode (env : ModelEnv) (n : String) : DagNode :=
  match env.dag.find? (fun p => p.1 == n) with
  | some p => p.2
  | none => ⟨"", n, [], []⟩

/-- Names present in the DAG object. -/
def dagNames (env : ModelEnv) : List String := env.dag.map Prod.fst

/-- The `layerClass === 'InputLayer'` test for the node stored under `n`. -/
def isInputNode (env : ModelEnv) (n : String) : Bool :=
  (dagNode env n).layerClass == "InputLayer"

/-- Lines 480–482: `numSiblingNodes` — the sum, over the inbound nodes, of
their outbound fan-out counts. -/
def numSiblingNodes (env : ModelEnv) (inbound : List String) : Nat :=
  (inbound.map (fun n => (dagNode env n).outbound)).foldl
    (fun num outbound => num + outbound.length) 0

/-- Line 483: `copyBeforeCall = numSiblingNodes >= 1`. -/
def copyBeforeCallFlag (env : ModelEnv) (inbound : List String) : Bool :=
  numSiblingNodes env inbound ≥ 1

/-- The four resource-transfer outcomes of `_regularLayerCall`
(lines 413–444): convert the accelerated result to a host tensor via the
producer, deep-copy the host buffer, duplicate at the accelerated-backend
level, or pass the reference through unchanged. -/
inductive TransferAction where
  | transferFromPipeline
  | hostCopy
  | weblasCopy
  | passThrough
deriving Repr, DecidableEq

/-- Branch selection of `_regularLayerCall` (lines 415–441), as a function of
`inboundLayerResult._fromPipeline`, `currentLayer._pipelineEnabled` and
`copyBeforeCall`. -/
def regularTransferAction (fromPipeline pipelineEnabled copyBeforeCall : Bool) :
    TransferAction :=
  if !fromPipeline || !pipelineEnabled then
    if fromPipeline then .transferFromPipeline
    else if copyBeforeCall then .hostCopy
    else .passThrough
  else if copyBeforeCall then .weblasCopy
  else .passThrough

/-- Apply a `TransferAction` to the inbound layer's result, producing the
tensor handed to the consuming layer.  `inboundName` identifies the
producing layer, which owns `transferFromPipeline`. -/
def applyTransfer (env : ModelEnv) (inboundName : String) (x : Tensor) :
    TransferAction → Tensor
  | .transferFromPipeline => env.transferFromPipeline inboundName x
  | .hostCopy => x.hostCopy
  | .weblasCopy => x.weblasCopy
  | .passThrough => x

/-- Method `_regularLayerCall` (lines 413–443): select the tensor actually passed to
`currentLayer.call`. -/
def regularCallInput (env : ModelEnv) (current inboundName : String)
    (st : EngineState) (copyBeforeCall : Bool) : Tensor :=
  let x := (st.layers inboundName).result
  applyTransfer env inboundName x
    (regularTransferAction x.fromPipeline (env.pipelineEnabled current) copyBeforeCall)

/-- Method `_mergeLayerCall` (lines 369–403): produce the list of tensors passed to
a Merge layer's `call`.  `canRunInPipeline` is true iff every inbound result
is a pipeline-mode tensor. -/
def mergeCallInputs (env : ModelEnv) (current : String) (inboundNames : List String)
    (st : EngineState) (copyBeforeCall : Bool) : List Tensor :=
  let inputs := inboundNames.map (fun i => (st.layers i).result)
  let canRunInPipeline := inputs.all (fun x => x.fromPipeline)
  if !canRunInPipeline || !(env.pipelineEnabled current) then
    inboundNames.map (fun i =>
      let x := (st.layers i).result
      if x.fromPipeline then env.transferFromPipeline i x
      else if copyBeforeCall then x.hostCopy
      else x)
  else if copyBeforeCall then inputs.map Tensor.weblasCopy
  else inputs

/-- Lines 484–490: dispatch on `layerClass === 'Merge'` and invoke
`currentLayer.call` on the transferred input(s); a regular layer receives
its single (first) inbound layer's transformed result. -/
def layerCallFor (env : ModelEnv) (st : EngineState) (n : String) (nd : DagNode) :
    Except String Tensor :=
  let copyBeforeCall := copyBeforeCallFlag env nd.inbound
  if nd.layerClass == "Merge" then
    env.call n (mergeCallInputs env n nd.inbound st copyBeforeCall)
  else
    env.call n [regularCallInput env n (nd.inbound.headD "") st copyBeforeCall]

/-- Lines 492–494: store the result, raise both flags, and push the layer
name onto `layersWithResults`. -/
def markComputed (st : EngineState) (n : String) (t : Tensor) : EngineState :=
  { layers := fun m =>
      if m = n then { hasResult := true, visited := true, result := t }
      else st.layers m,
    layersWithResults := st.layersWithResults ++ [n],
    isRunning := st.isRunning }

/-- Line 476: all inbound layers have a result (`every(... hasResult)`). -/
def inboundReady (env : ModelEnv) (st : EngineState) (n : String) : Bool :=
  (dagNode env n).inbound.all (fun i => (st.layers i).hasResult)

/-- Method `_traverseDAG` (lines 454–505).  The frontier list is processed exactly
as in the source: an empty frontier terminates the branch; a singleton
frontier runs the per-node logic — input-class nodes skip computation,
already-`visited` nodes and nodes whose inbound results are not all
available abort the branch silently, and otherwise the layer is called, the
node marked computed, and traversal recurses into its outbound list; a
larger frontier processes each node as its own singleton branch, with the
source's cooperative `Promise.all` interleaving rendered as left-to-right
sequencing.  A thrown layer error aborts the traversal and is returned in
the second component (mirroring promise rejection).  `fuel` bounds the
recursion depth of the singleton case; the source's recursion is unbounded
but terminates on acyclic graphs, and the theorems below supply fuel bounds
sufficient for any run that the source itself completes. -/
def traverseDAG (env : ModelEnv) : Nat → EngineState → List String →
    EngineState × Option String
  | 0, st, _ => (st, none)
  | fuel + 1, st, nodes =>
    match nodes with
    | [] => (st, none)
    | [n] =>
      let nd := dagNode env n
      if nd.layerClass == "InputLayer" then
        traverseDAG env fuel st nd.outbound
      else if (st.layers n).visited then (st, none)
      else if !(inboundReady env st n) then (st, none)
      else
        match layerCallFor env st n nd with
        | .error e => (st, some e)
        | .ok t => traverseDAG env fuel (markComputed st n t) nd.outbound
    | n :: m :: rest =>
      (n :: m :: rest).foldl
        (fun acc node =>
          match acc with
          | (s, some e) => (s, some e)
          | (s, none) => traverseDAG env fuel s [node])
        (st, none)

/-- The `.sort()` call on an array of names: JavaScript's default lexicographic sort,
rendered as insertion sort over the string order. -/
def sortStrings (l : List String) : List String := l.insertionSort (· ≤ ·)

/-- Line 518: `keys(this.inputTensors).sort()`. -/
def inputNamesOf (env : ModelEnv) : List String :=
  sortStrings (env.inputTensors.map Prod.fst)

/-- Object-property read `inputData[name]` (first binding wins; JavaScript
object keys are unique). -/
def jsLookup (l : List (String × JSValue)) (k : String) : Option JSValue :=
  (l.find? (fun p => p.1 == k)).map Prod.snd

/-- Lines 525–530: `every(inputNames, name => inputData[name] instanceof
Float32Array)`. -/
def inputValuesOk (env : ModelEnv) (inputData : List (String × JSValue)) : Bool :=
  (inputNamesOf env).all (fun nm =>
    match jsLookup inputData nm with
    | some (.f32 _) => true
    | _ => false)

/-- Lines 537–542: reset `layersWithResults` and every layer's `hasResult`
and `visited` flags. -/
def resetState (st : EngineState) : EngineState :=
  { layers := fun n => { st.layers n with hasResult := false, visited := false },
    layersWithResults := [],
    isRunning := st.isRunning }

/-- Lines 548–550: store an input layer's result and raise both flags
(seeding does not push onto `layersWithResults`). -/
def seedLayer (st : EngineState) (n : String) (t : Tensor) : EngineState :=
  { layers := fun m =>
      if m = n then { hasResult := true, visited := true, result := t }
      else st.layers m,
    layersWithResults := st.layersWithResults,
    isRunning := st.isRunning }

/-- Lookup `this.inputTensors[name]` — the input shape table. -/
def inputShapeOf (env : ModelEnv) (nm : String) : List Nat :=
  match env.inputTensors.find? (fun p => p.1 == nm) with
  | some p => p.2
  | none => []

/-- The tensor handed to an input layer's `call` on line 548: the input
tensor after `replaceTensorData` installed the caller's buffer. -/
def seedTensor (env : ModelEnv) (inputData : List (String × JSValue))
    (nm : String) : Tensor :=
  { data := ((jsLookup inputData nm).getD .other).bufferData,
    shape := inputShapeOf env nm, fromPipeline := false, actualShape := [] }

/-- One iteration of the seeding loop of lines 545–551, for input name
`nm`: run the input layer's `call` on the installed input tensor, store its
result and raise both flags; a thrown call aborts the loop (mirroring
exception unwinding out of `forEach`). -/
def seedStep (env : ModelEnv) (inputData : List (String × JSValue))
    (acc : EngineState × Option String) (nm : String) :
    EngineState × Option String :=
  match acc with
  | (s, some e) => (s, some e)
  | (s, none) =>
    match env.call nm [seedTensor env inputData nm] with
    | .error e => (s, some e)
    | .ok r => (seedLayer s nm r, none)

/-- Lines 544–551: for each input name (in sorted order), install the
caller's buffer into the input tensor, run the input layer's `call`, store
its result and raise both flags. -/
def seedInputs (env : ModelEnv) (st : EngineState)
    (inputData : List (String × JSValue)) : EngineState × Option String :=
  (inputNamesOf env).foldl (seedStep env inputData) (st, none)

/-- Error message of line 521 (the `InvalidInputError` for bad input names;
the interpolated name list is elided). -/
def invalidNamesMsg : String :=
  "predict() must take an object where the keys are the named inputs of the model."

/-- Error message of line 532 (the `InvalidInputError` for non-Float32Array
values). -/
def invalidTypesMsg : String :=
  "predict() must take an object where the values are the flattened data as Float32Array."

/-- Lines 556–578: collect the outputs.  For a Sequential model, the first
DAG node with an empty outbound list is returned under the fixed key
`"output"`; for a Model-class model, every empty-outbound node's result is
returned keyed by node name.  In both branches `isRunning` is cleared before
returning.  If a Sequential model has no empty-outbound node the source
dereferences `undefined` and throws, leaving `isRunning` true; if the model
class is neither string the source returns `undefined` without clearing
`isRunning` — both rendered here as their observable outcomes. -/
def collectOutputs (env : ModelEnv) (st : EngineState) :
    Except String (List (String × List Int)) × EngineState :=
  if env.modelClass == "Sequential" then
    match (env.dag.map Prod.snd).find? (fun nd => nd.outbound.isEmpty) with
    | some nd =>
      (.ok [("output", ((st.layers nd.name).result).data)],
       { st with isRunning := false })
    | none => (.error "TypeError: cannot read properties of undefined", st)
  else if env.modelClass == "Model" then
    let outputLayers := (env.dag.map Prod.snd).filter (fun nd => nd.outbound.isEmpty)
    (.ok (outputLayers.map (fun nd => (nd.name, ((st.layers nd.name).result).data))),
     { st with isRunning := false })
  else (.ok [], st)

/-- Method `predict` (lines 515–579): set the running guard, validate the supplied
input names against the declared input names (order-independent, via sorted
key lists) and the value types, reset per-node flags, seed the input layers,
traverse the DAG from the inputs, and collect the outputs.  Validation
failures clear the guard and fail; layer errors during seeding or traversal
propagate with the guard left set. -/
def predict (env : ModelEnv) (st : EngineState)
    (inputData : List (String × JSValue)) (fuel : Nat) :
    Except String (List (String × List Int)) × EngineState :=
  let st0 : EngineState := { st with isRunning := true }
  let inputNames := inputNamesOf env
  if sortStrings (inputData.map Prod.fst) ≠ inputNames then
    (.error invalidNamesMsg, { st0 with isRunning := false })
  else if !(inputValuesOk env inputData) then
    (.error invalidTypesMsg, { st0 with isRunning := false })
  else
    match seedInputs env (resetState st0) inputData with
    | (st1, some e) => (.error e, st1)
    | (st1, none) =>
      match traverseDAG env fuel st1 inputNames with
      | (st2, some e) => (.error e, st2)
      | (st2, none) => collectOutputs env st2

/-! ## Weight binding (lines 312–330) -/

/-- One record of the weights-metadata artifact (`this.data.metadata`):
snake_case field names follow the artifact format read by the source. -/
structure WeightMeta where
  layer_name : String
  weight_name : String
  offset : Nat
  length : Nat
  shape : List Nat
deriving Repr, DecidableEq

/-- The predicate of the lodash `find` on line 314: the entry's `layer_name`
equals the layer's config name and its `weight_name` matches the anchored
regular expression `^${weightName}` — i.e. `weightName` is a prefix of the
entry's `weight_name` (weight-slot names contain no regex
metacharacters). -/
def weightMatch (layerName weightName : String) (meta : WeightMeta) : Bool :=
  meta.layer_name == layerName && weightName.data.isPrefixOf meta.weight_name.data

/-- The tensor view produced on lines 323–327: `new Float32Array(weights,
offset, length)` reshaped per the metadata — recorded as the view
descriptor `[offset, offset+length)` plus the shape, over the shared raw
weight buffer. -/
structure WeightView where
  offset : Nat
  length : Nat
  shape : List Nat
deriving Repr, DecidableEq

/-- Lines 313–327 for one weight slot: locate the metadata entry with
lodash `find` (first match wins), throw `[Model] error loading weights.` if
none is found, and otherwise build the view over the raw buffer. -/
def loadLayerWeight (metadata : List WeightMeta) (layerName weightName : String) :
    Except String WeightView :=
  match metadata.find? (weightMatch layerName weightName) with
  | none => .error "[Model] error loading weights."
  | some m => .ok ⟨m.offset, m.length, m.shape⟩

/-! ## Graph building for Sequential models (`_createLayers`, lines 209–359) -/

/-- The fields of one Sequential layer spec that the embedded slice reads:
`class_name`, `config.name`, and `config.batch_input_shape` (read only on
the first layer). -/
structure LayerDef where
  class_name : String
  name : String
  batch_input_shape : List Nat
deriving Repr, DecidableEq

/-- JavaScript object-property assignment `obj[key] = v` on an association
list: overwrite in place if the key exists, else append. -/
def objInsert {α : Type} (l : List (String × α)) (key : String) (v : α) :
    List (String × α) :=
  if l.any (fun p => p.1 == key) then
    l.map (fun p => if p.1 == key then (p.1, v) else p)
  else l ++ [(key, v)]

/-- In-place field update of the node stored under `key`
(`this.modelDAG[key].outbound.push(...)` and the inbound analogue). -/
def objUpdate (l : List (String × DagNode)) (key : String) (f : DagNode → DagNode) :
    List (String × DagNode) :=
  l.map (fun p => if p.1 == key then (p.1, f p.2) else p)

/-- The `inputTensors` table built by `_createLayers` (name ↦ shape): for a
Sequential model the first layer synthesizes the entry `"input"` with shape
`batch_input_shape.slice(1)` (lines 231–245); for a Model-class model every
`InputLayer` spec contributes an entry under its own name (lines 246–249). -/
def createInputTensors (modelClass : String) (config : List LayerDef) :
    List (String × List Nat) :=
  config.enum.foldl
    (fun acc p =>
      let idx := p.1
      let layerDef := p.2
      if modelClass == "Sequential" && idx == 0 then
        objInsert acc "input" (layerDef.batch_input_shape.drop 1)
      else if modelClass == "Model" && layerDef.class_name == "InputLayer" then
        objInsert acc layerDef.name (layerDef.batch_input_shape.drop 1)
      else acc)
    []

/-- One iteration of the `_createLayers` loop for a Sequential model, DAG
part (lines 231–244, 332–349): on the first layer, synthesize the
`InputLayer` node named `"input"`; then add this layer's node and chain it
to its predecessor (the synthesized input for the first layer, the previous
layer otherwise).  The accumulator carries the DAG and the previous layer's
name. -/
def sequentialDagStep (acc : List (String × DagNode) × Option String)
    (p : Nat × LayerDef) : List (String × DagNode) × Option String :=
  let dag := acc.1
  let layerDef := p.2
  let dag :=
    if p.1 == 0 then
      objInsert dag "input"
        { layerClass := "InputLayer", name := "input", inbound := [], outbound := [] }
    else dag
  let dag :=
    objInsert dag layerDef.name
      { layerClass := layerDef.class_name, name := layerDef.name,
        inbound := [], outbound := [] }
  let prev := if p.1 == 0 then "input" else acc.2.getD ""
  let dag := objUpdate dag prev
    (fun nd => { nd with outbound := nd.outbound ++ [layerDef.name] })
  let dag := objUpdate dag layerDef.name
    (fun nd => { nd with inbound := nd.inbound ++ [prev] })
  (dag, some layerDef.name)

/-- The `modelDAG` object built by `_createLayers` for a Sequential model. -/
def createDagSequential (config : List LayerDef) : List (String × DagNode) :=
  (config.enum.foldl sequentialDagStep ([], none)).1

/-! ## Artifact loading and interrupt (lines 109–135) -/

/-- The in-flight XHR table `this.xhrs` (a key is present iff its request is
outstanding) together with the set of requests aborted so far. -/
structure XhrState where
  inFlight : List String
  aborted : List String
deriving Repr, DecidableEq

/-- The data-type list of `_interrupt` (line 110) — reproduced verbatim,
including the source's misspelling of the third entry. -/
def interruptDataTypes : List String := ["model", "weights", "metdata"]

/-- Method `_interrupt` (lines 109–117): for each listed type, if an XHR is
outstanding under that key, abort it and null the slot. -/
def interrupt (s : XhrState) : XhrState :=
  interruptDataTypes.foldl
    (fun st ty =>
      if st.inFlight.contains ty then
        { inFlight := st.inFlight.erase ty, aborted := st.aborted ++ [ty] }
      else st)
    s

/-- Method `_initialize` (lines 123–135): await the three artifact fetches and
build the layers; a rejection of any fetch reaches the `.catch` handler,
which logs the error and calls `_interrupt()` — and, returning normally,
settles the `_ready` promise as *resolved*.  `fetchOutcome` is the combined
outcome of `Promise.all` over the three `_dataRequest`s; the returned
`Except` is how `_ready` (i.e. `ready()`) settles. -/
def initializeModel (fetchOutcome : Except String Unit) (xhrs : XhrState) :
    XhrState × Except String Unit :=
  match fetchOutcome with
  | .ok _ => (xhrs, .ok ())
  | .error _ => (interrupt xhrs, .ok ())

/-! ## Small helpers and concrete fixtures -/

/-- The empty placeholder tensor (`new Tensor([], shape)` with no shape). -/
def tensor0 : Tensor := ⟨[], [], false, []⟩

/-- A fresh layer slot: no result yet. -/
def emptyLayer : LayerState := ⟨false, false, tensor0⟩

/-- An idle engine state. -/
def engineState0 : EngineState := ⟨fun _ => emptyLayer, [], false⟩

theorem sortStrings_perm (l : List String) : List.Perm (sortStrings l) l :=
  List.perm_insertionSort _ l

theorem sortStrings_sorted (l : List String) : (sortStrings l).Sorted (· ≤ ·) :=
  List.sorted_insertionSort _ l

theorem sortStrings_eq_iff_perm (a b : List String) :
    sortStrings a = sortStrings b ↔ List.Perm a b := by
  constructor
  · intro h
    exact ((sortStrings_perm a).symm.trans (h ▸ sortStrings_perm b : List.Perm (sortStrings a) b))
  · intro h
    exact List.eq_of_perm_of_sorted
      (((sortStrings_perm a).trans h).trans (sortStrings_perm b).symm)
      (sortStrings_sorted a) (sortStrings_sorted b)

theorem find?_eq_head?_filter {α : Type} (p : α → Bool) (l : List α) :
    l.find? p = (l.filter p).head? := by
  induction l with
  | nil => rfl
  | cons a l ih =>
    by_cases h : p a
    · simp [List.find?_cons, List.filter_cons, h]
    · simp only [List.find?_cons, List.filter_cons, h]
      simp only [Bool.false_eq_true, if_false, ih]

/-! ## Claim C2 — artifact-load failure handling -/

/-- The initial XHR table of a load with all three artifact requests in
flight. -/
def xhrsAllInFlight : XhrState := ⟨["model", "weights", "metadata"], []⟩

/-- Claim C2 (code evaluated at the failing input): when one artifact fetch
fails while all three XHRs are in flight, `_interrupt` aborts only the model
and weights requests — the misspelt `'metdata'` entry means the metadata XHR
is left in flight — and the `ready()` promise settles as *resolved* (the
`.catch` handler swallows the error), not rejected with the load error as
the claim states. -/
theorem C2_interrupt_skips_metadata_and_ready_resolves :
    (initializeModel (.error "network error") xhrsAllInFlight).1.inFlight
        = ["metadata"] ∧
    (initializeModel (.error "network error") xhrsAllInFlight).1.aborted
        = ["model", "weights"] ∧
    (initializeModel (.error "network error") xhrsAllInFlight).2 = .ok () :=
  ⟨rfl, rfl, rfl⟩

/-! ## Claim C3 — weight binding -/

/-- Metadata table containing two entries matching the slot
`dense_1` / `dense_1_W` (layer name equal, weight name carrying the slot
prefix). -/
def dupWeightMetadata : List WeightMeta :=
  [⟨"dense_1", "dense_1_W", 0, 4, [2, 2]⟩,
   ⟨"dense_1", "dense_1_W_dup", 16, 4, [2, 2]⟩]

/-- Claim C3 counterexample: with two metadata entries matching the slot,
the claim says binding fails with `MissingWeightError`; the code's lodash
`find` silently takes the first matching entry and succeeds. -/
theorem C3_counterexample_two_matches_no_error :
    (dupWeightMetadata.filter (weightMatch "dense_1" "dense_1_W")).length = 2 ∧
    loadLayerWeight dupWeightMetadata "dense_1" "dense_1_W" = .ok ⟨0, 4, [2, 2]⟩ :=
  ⟨by decide, by rfl⟩

/-- Claim C3 (amended): weight binding fails with the missing-weight error
*iff zero* metadata entries match the layer name and slot-derived prefix;
when one or more entries match, the *first* matching entry wins and yields
the tensor view `[offset, offset+length)` with that entry's shape (so the
exactly-one-match case behaves as the original claim states). -/
theorem C3_weight_binding_zero_match_iff_error
    (metadata : List WeightMeta) (layerName weightName : String) :
    (loadLayerWeight metadata layerName weightName
        = .error "[Model] error loading weights."
      ↔ (metadata.filter (weightMatch layerName weightName)).length = 0) ∧
    (∀ m : WeightMeta,
      (metadata.filter (weightMatch layerName weightName)).head? = some m →
      loadLayerWeight metadata layerName weightName
        = .ok ⟨m.offset, m.length, m.shape⟩) := by
  have hfind : metadata.find? (weightMatch layerName weightName)
      = (metadata.filter (weightMatch layerName weightName)).head? :=
    find?_eq_head?_filter _ _
  constructor
  · unfold loadLayerWeight
    rw [hfind]
    cases h : (metadata.filter (weightMatch layerName weightName)) with
    | nil => simp
    | cons m rest => simp
  · intro m hm
    unfold loadLayerWeight
    rw [hfind, hm]

/-- Witness for the amended claim C3: on the two-match fixture the binding
result is the view of the first matching entry. -/
theorem C3_weight_binding_zero_match_iff_error_witness :
    loadLayerWeight dupWeightMetadata "dense_1" "dense_1_W" = .ok ⟨0, 4, [2, 2]⟩ :=
  (C3_weight_binding_zero_match_iff_error dupWeightMetadata "dense_1" "dense_1_W").2
    ⟨"dense_1", "dense_1_W", 0, 4, [2, 2]⟩ (by decide)

/-! ## Claim C4 — sibling flag and pass-by-reference -/

theorem foldl_add_length_eq {α : Type} (l : List (List α)) (a : Nat) :
    l.foldl (fun num ob => num + ob.length) a = a + (l.map List.length).sum := by
  induction l generalizing a with
  | nil => simp
  | cons x xs ih => simp [ih, Nat.add_assoc]

theorem numSiblingNodes_eq_sum (env : ModelEnv) (inbound : List String) :
    numSiblingNodes env inbound
      = (inbound.map (fun m => (dagNode env m).outbound.length)).sum := by
  unfold numSiblingNodes
  rw [foldl_add_length_eq, Nat.zero_add, List.map_map]
  rfl

/-- A minimal linear graph `input → a → b`: node `b` is the only consumer of
`a`'s result, and no inbound source of `b` is shared with another
downstream consumer. -/
def chainEnv : ModelEnv :=
  { dag :=
      [("input", ⟨"InputLayer", "input", [], ["a"]⟩),
       ("a", ⟨"Dense", "a", ["input"], ["b"]⟩),
       ("b", ⟨"Dense", "b", ["a"], []⟩)],
    inputTensors := [("input", [1])],
    modelClass := "Model",
    call := fun _ _ => .ok tensor0,
    pipelineEnabled := fun _ => false,
    transferFromPipeline := fun _ x => x }

/-- Claim C4 counterexample: in the linear graph `input → a → b`, node `b`'s
single inbound producer `a` has exactly one consumer (`a.outbound = ["b"]`),
so by the claim the sibling flag should be false and a Host-backend result
should be passed through by reference; but `numSiblingNodes` counts `b`
itself in `a`'s fan-out, the flag computes to true, and the selected
transfer action for a Host-backend result is the deep copy, not the
pass-through. -/
theorem C4_counterexample_single_consumer_still_copies :
    (dagNode chainEnv "a").outbound = ["b"] ∧
    numSiblingNodes chainEnv (dagNode chainEnv "b").inbound = 1 ∧
    copyBeforeCallFlag chainEnv (dagNode chainEnv "b").inbound = true ∧
    regularTransferAction false (chainEnv.pipelineEnabled "b")
        (copyBeforeCallFlag chainEnv (dagNode chainEnv "b").inbound)
      = .hostCopy ∧
    regularTransferAction false (chainEnv.pipelineEnabled "b")
        (copyBeforeCallFlag chainEnv (dagNode chainEnv "b").inbound)
      ≠ .passThrough :=
  ⟨rfl, rfl, rfl, rfl, by decide⟩

/-- Claim C4 (amended): for every computable node with at least one inbound
edge (in a consistent DAG, where the node appears in each inbound producer's
outbound list), the sibling flag is *true* — each inbound producer's fan-out
count includes this consumer itself, so the sum is always ≥ 1 — and a
Host-backend inbound result is deep-copied before the layer call; the
pass-by-reference branch is reachable only for a node whose inbound
producers all have empty outbound lists. -/
theorem C4_sibling_flag_true_with_any_inbound (env : ModelEnv) (n i : String)
    (pe : Bool)
    (hi : i ∈ (dagNode env n).inbound) (ho : n ∈ (dagNode env i).outbound) :
    copyBeforeCallFlag env (dagNode env n).inbound = true ∧
    regularTransferAction false pe
        (copyBeforeCallFlag env (dagNode env n).inbound) = .hostCopy := by
  have hone : 1 ≤ numSiblingNodes env (dagNode env n).inbound := by
    rw [numSiblingNodes_eq_sum]
    have hlen : 1 ≤ (dagNode env i).outbound.length :=
      List.length_pos.mpr (List.ne_nil_of_mem ho)
    calc 1 ≤ (dagNode env i).outbound.length := hlen
    _ ≤ ((dagNode env n).inbound.map
          (fun m => (dagNode env m).outbound.length)).sum :=
        List.single_le_sum (fun x _ => Nat.zero_le x) _
          (List.mem_map_of_mem _ hi)
  have hflag : copyBeforeCallFlag env (dagNode env n).inbound = true := by
    unfold copyBeforeCallFlag
    exact decide_eq_true hone
  exact ⟨hflag, by rw [hflag]; rfl⟩

/-- Witness for the amended claim C4, on the linear graph `input → a → b`. -/
theorem C4_sibling_flag_true_with_any_inbound_witness :
    copyBeforeCallFlag chainEnv (dagNode chainEnv "b").inbound = true ∧
    regularTransferAction false false
        (copyBeforeCallFlag chainEnv (dagNode chainEnv "b").inbound) = .hostCopy :=
  C4_sibling_flag_true_with_any_inbound chainEnv "b" "a" false (by decide) (by decide)

/-! ## Claim C10 — Sequential models expose exactly the input name `"input"` -/

theorem find?_map_key_eq {α : Type} (k : String) (g : String × α → String × α)
    (hfst : ∀ p, (g p).1 = p.1) (hfix : ∀ p, p.1 = k → g p = p)
    (l : List (String × α)) :
    (l.map g).find? (fun p => p.1 == k) = l.find? (fun p => p.1 == k) := by
  induction l with
  | nil => rfl
  | cons a as ih =>
    rw [List.map_cons]
    by_cases hak : a.1 = k
    · rw [hfix a hak, List.find?_cons_of_pos _ (by simp [hak]),
        List.find?_cons_of_pos _ (by simp [hak])]
    · rw [List.find?_cons_of_neg _ (by simp [hfst, hak]),
        List.find?_cons_of_neg _ (by simp [hak]), ih]

theorem objInsert_find?_ne {α : Type} (l : List (String × α)) (key k : String)
    (v : α) (hk : key ≠ k) :
    (objInsert l key v).find? (fun p => p.1 == k) = l.find? (fun p => p.1 == k) := by
  unfold objInsert
  by_cases hmem : l.any (fun p => p.1 == key)
  · rw [if_pos hmem]
    exact find?_map_key_eq k _ (fun p => by by_cases h : p.1 == key <;> simp [h])
      (fun p hp => by
        have : (p.1 == key) = false := by
          rw [hp]; exact beq_eq_false_iff_ne.mpr (Ne.symm hk)
        simp [this]) l
  · rw [if_neg hmem, List.find?_append]
    cases hfl : l.find? (fun p => p.1 == k) with
    | some p => rfl
    | none =>
      have : (key == k) = false := beq_eq_false_iff_ne.mpr hk
      simp [List.find?_cons, this]

theorem objUpdate_find?_ne (l : List (String × DagNode)) (key k : String)
    (f : DagNode → DagNode) (hk : key ≠ k) :
    (objUpdate l key f).find? (fun p => p.1 == k) = l.find? (fun p => p.1 == k) := by
  unfold objUpdate
  exact find?_map_key_eq k _ (fun p => by by_cases h : p.1 == key <;> simp [h])
    (fun p hp => by
      have : (p.1 == key) = false := by
        rw [hp]; exact beq_eq_false_iff_ne.mpr (Ne.symm hk)
      simp [this]) l

theorem createInputTensors_seq_tail (l : List LayerDef) (k : Nat) (hk : 1 ≤ k)
    (acc : List (String × List Nat)) :
    (l.enumFrom k).foldl
      (fun acc p =>
        let idx := p.1
        let layerDef := p.2
        if "Sequential" == "Sequential" && idx == 0 then
          objInsert acc "input" (layerDef.batch_input_shape.drop 1)
        else if "Sequential" == "Model" && layerDef.class_name == "InputLayer" then
          objInsert acc layerDef.name (layerDef.batch_input_shape.drop 1)
        else acc) acc = acc := by
  induction l generalizing k acc with
  | nil => rfl
  | cons c cs ih =>
    rw [List.enumFrom_cons, List.foldl_cons]
    have hk0 : (k == 0) = false := by
      cases k with
      | zero => omega
      | succ _ => rfl
    simp only [hk0, Bool.and_false, Bool.false_and, if_false]
    exact ih (k + 1) (by omega) acc

theorem createInputTensors_seq (c0 : LayerDef) (cs : List LayerDef) :
    createInputTensors "Sequential" (c0 :: cs)
      = [("input", c0.batch_input_shape.drop 1)] := by
  unfold createInputTensors
  rw [List.enum_cons, List.foldl_cons]
  have h0 : ((0 : Nat) == 0) = true := rfl
  simp only [h0, Bool.and_true]
  rw [createInputTensors_seq_tail cs 1 (by omega)]
  rfl

theorem sequentialDag_tail (l : List LayerDef) (k : Nat) (hk : 1 ≤ k)
    (dag : List (String × DagNode)) (prev : String) (hprev : prev ≠ "input")
    (hno : ∀ c ∈ l, c.name ≠ "input") :
    ((l.enumFrom k).foldl sequentialDagStep (dag, some prev)).1.find?
        (fun p => p.1 == "input")
      = dag.find? (fun p => p.1 == "input") := by
  induction l generalizing k dag prev with
  | nil => rfl
  | cons c cs ih =>
    rw [List.enumFrom_cons, List.foldl_cons]
    have hk0 : (k == 0) = false := by
      cases k with
      | zero => omega
      | succ _ => rfl
    have hcname : c.name ≠ "input" := hno c (by simp)
    have hstep : sequentialDagStep (dag, some prev) (k, c)
        = (objUpdate
            (objUpdate (objInsert dag c.name
              { layerClass := c.class_name, name := c.name,
                inbound := [], outbound := [] }) prev
              (fun nd => { nd with outbound := nd.outbound ++ [c.name] })) c.name
              (fun nd => { nd with inbound := nd.inbound ++ [prev] }),
           some c.name) := by
      unfold sequentialDagStep
      simp [hk0]
    rw [hstep, ih (k + 1) (by omega) _ c.name hcname
      (fun d hd => hno d (by simp [hd]))]
    rw [objUpdate_find?_ne _ _ _ _ hcname, objUpdate_find?_ne _ _ _ _ hprev,
      objInsert_find?_ne _ _ _ _ hcname]

theorem createDagSequential_input_node (c0 : LayerDef) (cs : List LayerDef)
    (hno : ∀ c ∈ c0 :: cs, c.name ≠ "input") :
    (createDagSequential (c0 :: cs)).find? (fun p => p.1 == "input")
      = some ("input", ⟨"InputLayer", "input", [], [c0.name]⟩) := by
  unfold createDagSequential
  rw [List.enum_cons, List.foldl_cons]
  have hc0 : c0.name ≠ "input" := hno c0 (by simp)
  have hc0b : (("input" : String) == c0.name) = false := by
    simp [Ne.symm hc0]
  have hstep : sequentialDagStep ([], none) (0, c0)
      = ([("input", ⟨"InputLayer", "input", [], [c0.name]⟩),
          (c0.name, ⟨c0.class_name, c0.name, ["input"], []⟩)], some c0.name) := by
    unfold sequentialDagStep objInsert objUpdate
    simp [hc0b, Ne.symm hc0, hc0]
  rw [hstep, sequentialDag_tail cs 1 (by omega) _ c0.name hc0
    (fun d hd => hno d (by simp [hd]))]
  simp [List.find?_cons]

theorem sortStrings_singleton (s : String) : sortStrings [s] = [s] := rfl

theorem sortStrings_eq_singleton_iff (l : List String) (s : String) :
    sortStrings l = [s] ↔ l = [s] := by
  constructor
  · intro h
    have hperm : List.Perm l [s] := by
      rw [show [s] = sortStrings [s] from rfl] at h
      exact (sortStrings_eq_iff_perm l [s]).mp h
    exact List.perm_singleton.mp hperm
  · intro h
    rw [h]
    rfl

/-- Claim C10: for a model built from the Sequential form (nonempty layer
list, none of whose layers is itself named `"input"`), the synthesized input
node is named exactly `"input"` — the DAG stores an `InputLayer` node under
that key wired to the first real layer, and the input-tensor table holds
exactly the key `"input"` — so `predict`'s name validation accepts a
supplied mapping iff its key list is exactly `["input"]`, and rejects
anything else with the invalid-names error without touching layer state. -/
theorem C10_sequential_input_named_input
    (config : List LayerDef) (c0 : LayerDef) (cs : List LayerDef)
    (hc : config = c0 :: cs) (hno : ∀ c ∈ config, c.name ≠ "input")
    (env : ModelEnv)
    (henv : env.inputTensors = createInputTensors "Sequential" config)
    (st : EngineState) (inputData : List (String × JSValue)) (fuel : Nat) :
    (createInputTensors "Sequential" config).map Prod.fst = ["input"] ∧
    (createDagSequential config).find? (fun p => p.1 == "input")
      = some ("input", ⟨"InputLayer", "input", [], [c0.name]⟩) ∧
    (sortStrings (inputData.map Prod.fst) = inputNamesOf env
      ↔ inputData.map Prod.fst = ["input"]) ∧
    (inputData.map Prod.fst ≠ ["input"] →
      predict env st inputData fuel
        = (.error invalidNamesMsg, ⟨st.layers, st.layersWithResults, false⟩)) := by
  subst hc
  have hkeys : (createInputTensors "Sequential" (c0 :: cs)).map Prod.fst = ["input"] := by
    rw [createInputTensors_seq]
    rfl
  have hnames : inputNamesOf env = ["input"] := by
    unfold inputNamesOf
    rw [henv, hkeys]
    rfl
  have hiff : sortStrings (inputData.map Prod.fst) = inputNamesOf env
      ↔ inputData.map Prod.fst = ["input"] := by
    rw [hnames]
    exact sortStrings_eq_singleton_iff _ _
  refine ⟨hkeys, createDagSequential_input_node c0 cs hno, hiff, ?_⟩
  intro hne
  have hcond : sortStrings (inputData.map Prod.fst) ≠ inputNamesOf env :=
    fun h => hne (hiff.mp h)
  unfold predict
  rw [if_pos hcond]

/-- A one-layer Sequential model description. -/
def seqConfig1 : List LayerDef := [⟨"Dense", "dense_1", [1, 4]⟩]

/-- The environment a Sequential model with `seqConfig1` runs with. -/
def seqEnv1 : ModelEnv :=
  { dag := createDagSequential seqConfig1,
    inputTensors := createInputTensors "Sequential" seqConfig1,
    modelClass := "Sequential",
    call := fun _ _ => .ok tensor0,
    pipelineEnabled := fun _ => false,
    transferFromPipeline := fun _ x => x }

/-- Witness for claim C10: on the one-layer Sequential model, the input
table's key list is exactly `["input"]` and a `predict` call keyed `"x"` is
rejected with the invalid-names error, leaving the layer state untouched. -/
theorem C10_sequential_input_named_input_witness :
    (createInputTensors "Sequential" seqConfig1).map Prod.fst = ["input"] ∧
    predict seqEnv1 engineState0 [("x", JSValue.f32 [])] 3
      = (.error invalidNamesMsg,
         ⟨engineState0.layers, engineState0.layersWithResults, false⟩) := by
  have h := C10_sequential_input_named_input seqConfig1 ⟨"Dense", "dense_1", [1, 4]⟩
    [] rfl (by decide) seqEnv1 rfl engineState0 [("x", JSValue.f32 [])] 3
  exact ⟨h.1, h.2.2.2 (by decide)⟩

/-! ## Traversal infrastructure -/

/-- The branch-list walker implicit in the multi-node case of
`_traverseDAG`: process each node as its own singleton branch, left to
right, stopping at the first rejected branch. -/
def traverseList (env : ModelEnv) (fuel : Nat) :
    EngineState × Option String → List String → EngineState × Option String :=
  fun acc nodes =>
    nodes.foldl
      (fun acc node =>
        match acc with
        | (s, some e) => (s, some e)
        | (s, none) => traverseDAG env fuel s [node])
      acc

theorem traverseDAG_zero (env : ModelEnv) (st : EngineState) (ns : List String) :
    traverseDAG env 0 st ns = (st, none) := rfl

theorem traverseDAG_nil (env : ModelEnv) (fuel : Nat) (st : EngineState) :
    traverseDAG env fuel st [] = (st, none) := by
  cases fuel <;> rfl

theorem traverseDAG_single (env : ModelEnv) (fuel : Nat) (st : EngineState)
    (n : String) :
    traverseDAG env (fuel + 1) st [n]
      = (if (dagNode env n).layerClass == "InputLayer" then
          traverseDAG env fuel st (dagNode env n).outbound
        else if (st.layers n).visited then (st, none)
        else if !(inboundReady env st n) then (st, none)
        else
          match layerCallFor env st n (dagNode env n) with
          | .error e => (st, some e)
          | .ok t => traverseDAG env fuel (markComputed st n t) (dagNode env n).outbound) :=
  rfl

theorem traverseDAG_multi (env : ModelEnv) (fuel : Nat) (st : EngineState)
    (n m : String) (rest : List String) :
    traverseDAG env (fuel + 1) st (n :: m :: rest)
      = traverseList env fuel (st, none) (n :: m :: rest) := rfl

theorem traverseList_err (env : ModelEnv) (fuel : Nat) (st : EngineState)
    (e : String) (ns : List String) :
    traverseList env fuel (st, some e) ns = (st, some e) := by
  induction ns with
  | nil => rfl
  | cons x xs ih => exact ih

theorem traverseList_cons (env : ModelEnv) (fuel : Nat) (st : EngineState)
    (n : String) (ns : List String) :
    traverseList env fuel (st, none) (n :: ns)
      = traverseList env fuel (traverseDAG env fuel st [n]) ns := rfl

/-- The mutation discipline of the traversal: the final state arises from the
initial one by a sequence of `markComputed` operations, each on a node whose
`visited` flag is still false. -/
inductive TravSteps (s : EngineState) : EngineState → Prop where
  | refl : TravSteps s s
  | step (t : EngineState) (n : String) (x : Tensor) (h : TravSteps s t)
      (hnv : (t.layers n).visited = false) : TravSteps s (markComputed t n x)

theorem TravSteps.trans {a b c : EngineState}
    (h1 : TravSteps a b) (h2 : TravSteps b c) : TravSteps a c := by
  induction h2 with
  | refl => exact h1
  | step t n x h hnv ih => exact TravSteps.step t n x ih hnv

theorem markComputed_layers_eq (st : EngineState) (n : String) (t : Tensor) :
    ((markComputed st n t).layers n) = ⟨true, true, t⟩ := by
  unfold markComputed
  simp

theorem markComputed_layers_ne (st : EngineState) (n m : String) (t : Tensor)
    (h : m ≠ n) : ((markComputed st n t).layers m) = st.layers m := by
  unfold markComputed
  simp [h]

theorem travSteps_traverse (env : ModelEnv) :
    ∀ (fuel : Nat) (st : EngineState) (ns : List String),
      TravSteps st (traverseDAG env fuel st ns).1 := by
  intro fuel
  induction fuel with
  | zero => intro st ns; exact TravSteps.refl
  | succ fuel ih =>
    have ihList : ∀ (ns : List String) (st : EngineState),
        TravSteps st (traverseList env fuel (st, none) ns).1 := by
      intro ns
      induction ns with
      | nil => intro st; exact TravSteps.refl
      | cons n rest ihr =>
        intro st
        rw [traverseList_cons]
        cases hr : traverseDAG env fuel st [n] with
        | mk st1 err =>
          have h1 : TravSteps st st1 := by
            have := ih st [n]
            rw [hr] at this
            exact this
          cases err with
          | none => exact h1.trans (ihr st1)
          | some e => rw [traverseList_err]; exact h1
    intro st ns
    match ns with
    | [] => rw [traverseDAG_nil]; exact TravSteps.refl
    | [n] =>
      rw [traverseDAG_single]
      by_cases hin : (dagNode env n).layerClass == "InputLayer"
      · simp only [hin, if_true]
        exact ih st (dagNode env n).outbound
      · simp only [hin, if_false]
        by_cases hv : (st.layers n).visited
        · simp only [hv, if_true]; exact TravSteps.refl
        · simp only [hv, if_false]
          by_cases hready : inboundReady env st n
          · simp only [hready, Bool.not_true, if_false]
            cases hcall : layerCallFor env st n (dagNode env n) with
            | error e => exact TravSteps.refl
            | ok t =>
              have hstep : TravSteps st (markComputed st n t) :=
                TravSteps.step st n t (TravSteps.refl)
                  (by simpa using hv)
              exact hstep.trans (ih (markComputed st n t) (dagNode env n).outbound)
          · simp only [hready, Bool.not_false, if_true]
            exact TravSteps.refl
    | n :: m :: rest =>
      rw [traverseDAG_multi]
      exact ihList (n :: m :: rest) st

/-- Flag ordering: every raised flag stays raised. -/
def flagsLe (s t : EngineState) : Prop :=
  ∀ n, ((s.layers n).hasResult = true → (t.layers n).hasResult = true) ∧
       ((s.layers n).visited = true → (t.layers n).visited = true)

theorem flagsLe_refl (s : EngineState) : flagsLe s s :=
  fun _ => ⟨id, id⟩

theorem flagsLe_trans {a b c : EngineState} (h1 : flagsLe a b) (h2 : flagsLe b c) :
    flagsLe a c :=
  fun n => ⟨fun h => (h2 n).1 ((h1 n).1 h), fun h => (h2 n).2 ((h1 n).2 h)⟩

/-- The `visited` and `hasResult` flags agree at every node. -/
def flagsConsistent (s : EngineState) : Prop :=
  ∀ n, (s.layers n).visited = (s.layers n).hasResult

/-- Every layer call returns normally (no layer throws). -/
def CallOk (env : ModelEnv) : Prop :=
  ∀ n ts, ∃ t, env.call n ts = Except.ok t

theorem travSteps_flagsLe {s t : EngineState} (h : TravSteps s t) : flagsLe s t := by
  induction h with
  | refl => exact flagsLe_refl s
  | step t n x h hnv ih =>
    refine flagsLe_trans ih (fun m => ?_)
    by_cases hm : m = n
    · subst hm; rw [markComputed_layers_eq]; exact ⟨fun _ => rfl, fun _ => rfl⟩
    · rw [markComputed_layers_ne _ _ _ _ hm]; exact ⟨id, id⟩

theorem travSteps_flagsConsistent {s t : EngineState} (h : TravSteps s t)
    (hc : flagsConsistent s) : flagsConsistent t := by
  induction h with
  | refl => exact hc
  | step t n x h hnv ih =>
    intro m
    by_cases hm : m = n
    · subst hm; rw [markComputed_layers_eq]
    · rw [markComputed_layers_ne _ _ _ _ hm]; exact ih m

theorem travSteps_isRunning {s t : EngineState} (h : TravSteps s t) :
    t.isRunning = s.isRunning := by
  induction h with
  | refl => rfl
  | step t n x h hnv ih => exact ih

theorem travSteps_lwr_prefix {s t : EngineState} (h : TravSteps s t) :
    ∃ l, t.layersWithResults = s.layersWithResults ++ l := by
  induction h with
  | refl => exact ⟨[], by simp⟩
  | step t n x h hnv ih =>
    obtain ⟨l, hl⟩ := ih
    exact ⟨l ++ [n], by
      show t.layersWithResults ++ [n] = _
      rw [hl, List.append_assoc]⟩

/-- The bookkeeping invariant for the computation log: no duplicates, and
every logged node is visited. -/
def LwrInv (s : EngineState) : Prop :=
  s.layersWithResults.Nodup ∧
  ∀ n ∈ s.layersWithResults, (s.layers n).visited = true

theorem travSteps_lwrInv {s t : EngineState} (h : TravSteps s t)
    (hi : LwrInv s) : LwrInv t := by
  induction h with
  | refl => exact hi
  | step t n x h hnv ih =>
    obtain ⟨hnd, hvis⟩ := ih
    constructor
    · show (t.layersWithResults ++ [n]).Nodup
      rw [List.nodup_append]
      refine ⟨hnd, List.nodup_singleton n, ?_⟩
      intro a ha hb
      rw [List.mem_singleton] at hb
      subst hb
      rw [hvis a ha] at hnv
      exact Bool.noConfusion hnv
    · intro m hm
      show ((markComputed t n x).layers m).visited = true
      by_cases hmn : m = n
      · subst hmn; rw [markComputed_layers_eq]
      · rw [markComputed_layers_ne _ _ _ _ hmn]
        rcases List.mem_append.mp hm with hml | hms
        · exact hvis m hml
        · rw [List.mem_singleton] at hms; exact absurd hms hmn

theorem travSteps_newly_logged {s t : EngineState} (h : TravSteps s t) (m : String)
    (h0 : (s.layers m).hasResult = false) (h1 : (t.layers m).hasResult = true) :
    m ∈ t.layersWithResults := by
  induction h with
  | refl => rw [h0] at h1; exact Bool.noConfusion h1
  | step t n x h hnv ih =>
    show m ∈ t.layersWithResults ++ [n]
    by_cases hmn : m = n
    · subst hmn; simp
    · rw [markComputed_layers_ne _ _ _ _ hmn] at h1
      exact List.mem_append.mpr (Or.inl (ih h1))

theorem travSteps_result_stable {s t : EngineState} (h : TravSteps s t)
    (hc : flagsConsistent s) (m : String) (hm : (s.layers m).hasResult = true) :
    (t.layers m).result = (s.layers m).result := by
  induction h with
  | refl => rfl
  | step t n x h hnv ih =>
    by_cases hmn : m = n
    · subst hmn
      have hv : (s.layers m).visited = true := by rw [hc m]; exact hm
      have hv2 : (t.layers m).visited = true := (travSteps_flagsLe h m).2 hv
      rw [hv2] at hnv
      exact Bool.noConfusion hnv
    · rw [markComputed_layers_ne _ _ _ _ hmn]
      exact ih

theorem traverse_err_none (env : ModelEnv) (hc : CallOk env) :
    ∀ (fuel : Nat) (st : EngineState) (ns : List String),
      (traverseDAG env fuel st ns).2 = none := by
  intro fuel
  induction fuel with
  | zero => intro st ns; rfl
  | succ fuel ih =>
    have ihList : ∀ (ns : List String) (st : EngineState),
        (traverseList env fuel (st, none) ns).2 = none := by
      intro ns
      induction ns with
      | nil => intro st; rfl
      | cons n rest ihr =>
        intro st
        rw [traverseList_cons]
        cases hr : traverseDAG env fuel st [n] with
        | mk st1 err =>
          have herr : err = none := by
            have := ih st [n]
            rw [hr] at this
            exact this
          subst herr
          exact ihr st1
    intro st ns
    match ns with
    | [] => rw [traverseDAG_nil]
    | [n] =>
      rw [traverseDAG_single]
      by_cases hin : (dagNode env n).layerClass == "InputLayer"
      · simp only [hin, if_true]
        exact ih st (dagNode env n).outbound
      · simp only [Bool.not_eq_true] at hin
        simp only [hin, Bool.false_eq_true, if_false]
        by_cases hv : (st.layers n).visited
        · simp [hv]
        · simp only [Bool.not_eq_true] at hv
          simp only [hv, Bool.false_eq_true, if_false]
          by_cases hready : inboundReady env st n
          · simp only [hready, Bool.not_true, Bool.false_eq_true, if_false]
            obtain ⟨t, ht⟩ := hc n
              (if (dagNode env n).layerClass == "Merge" then
                mergeCallInputs env n (dagNode env n).inbound st
                  (copyBeforeCallFlag env (dagNode env n).inbound)
              else [regularCallInput env n ((dagNode env n).inbound.headD "") st
                  (copyBeforeCallFlag env (dagNode env n).inbound)])
            have hcall : layerCallFor env st n (dagNode env n) = .ok t := by
              unfold layerCallFor
              by_cases hm : (dagNode env n).layerClass == "Merge"
              · simp only [hm, if_true]
                simpa [hm] using ht
              · simp only [hm, if_false]
                simpa [hm] using ht
            rw [hcall]
            exact ih (markComputed st n t) (dagNode env n).outbound
          · simp only [Bool.not_eq_true] at hready
            simp [hready]
    | n :: m :: rest =>
      rw [traverseDAG_multi]
      exact ihList (n :: m :: rest) st

/-- Number of DAG entries whose node has no result yet. -/
def uncomputedCount (env : ModelEnv) (s : EngineState) : Nat :=
  (env.dag.filter (fun p => !(s.layers p.1).hasResult)).length

theorem length_filter_le_of_imp {α : Type} (p q : α → Bool) (l : List α)
    (h : ∀ x ∈ l, q x = true → p x = true) :
    (l.filter q).length ≤ (l.filter p).length := by
  induction l with
  | nil => exact Nat.le_refl 0
  | cons a as ih =>
    have ih' := ih (fun x hx => h x (List.mem_cons_of_mem a hx))
    rw [List.filter_cons, List.filter_cons]
    by_cases hq : q a = true
    · rw [hq, h a (List.mem_cons_self a as) hq]
      simp only [if_true, List.length_cons]
      exact Nat.succ_le_succ ih'
    · simp only [Bool.not_eq_true] at hq
      rw [hq]
      simp only [Bool.false_eq_true, if_false]
      by_cases hp : p a = true
      · rw [hp]
        simp only [if_true, List.length_cons]
        exact Nat.le_succ_of_le ih'
      · simp only [Bool.not_eq_true] at hp
        rw [hp]
        simp only [Bool.false_eq_true, if_false]
        exact ih'

theorem length_filter_lt_of_witness {α : Type} (p q : α → Bool) (l : List α)
    (h : ∀ x ∈ l, q x = true → p x = true)
    (a : α) (ha : a ∈ l) (hpa : p a = true) (hqa : q a = false) :
    (l.filter q).length < (l.filter p).length := by
  induction l with
  | nil => cases ha
  | cons b bs ih =>
    have hstep : ∀ x ∈ bs, q x = true → p x = true :=
      fun x hx => h x (List.mem_cons_of_mem b hx)
    rcases List.mem_cons.mp ha with hab | habs
    · subst hab
      rw [List.filter_cons, List.filter_cons, hpa, hqa]
      simp only [if_true, Bool.false_eq_true, if_false, List.length_cons]
      exact Nat.lt_succ_of_le (length_filter_le_of_imp p q bs hstep)
    · rw [List.filter_cons, List.filter_cons]
      by_cases hq : q b = true
      · rw [hq, h b (List.mem_cons_self b bs) hq]
        simp only [if_true, List.length_cons]
        exact Nat.succ_lt_succ (ih hstep habs)
      · simp only [Bool.not_eq_true] at hq
        rw [hq]
        simp only [Bool.false_eq_true, if_false]
        by_cases hp : p b = true
        · rw [hp]
          simp only [if_true, List.length_cons]
          exact Nat.lt_succ_of_le (Nat.le_of_lt (ih hstep habs))
        · simp only [Bool.not_eq_true] at hp
          rw [hp]
          simp only [Bool.false_eq_true, if_false]
          exact ih hstep habs

theorem uncomputedCount_le_of_flagsLe (env : ModelEnv) {s t : EngineState}
    (h : flagsLe s t) : uncomputedCount env t ≤ uncomputedCount env s := by
  unfold uncomputedCount
  refine length_filter_le_of_imp _ _ env.dag (fun x _ hx => ?_)
  simp only [Bool.not_eq_true'] at hx ⊢
  by_cases hs : (s.layers x.1).hasResult = true
  · rw [(h x.1).1 hs] at hx
    exact Bool.noConfusion hx
  · simp only [Bool.not_eq_true] at hs
    exact hs

theorem uncomputedCount_le_length (env : ModelEnv) (s : EngineState) :
    uncomputedCount env s ≤ env.dag.length :=
  List.length_filter_le _ _

theorem uncomputedCount_markComputed_lt (env : ModelEnv) (s : EngineState)
    (n : String) (x : Tensor) (hn : n ∈ dagNames env)
    (h0 : (s.layers n).hasResult = false) :
    uncomputedCount env (markComputed s n x) < uncomputedCount env s := by
  unfold uncomputedCount
  obtain ⟨p, hp, hp1⟩ : ∃ p ∈ env.dag, p.1 = n := by
    unfold dagNames at hn
    obtain ⟨p, hp, hp1⟩ := List.mem_map.mp hn
    exact ⟨p, hp, hp1⟩
  refine length_filter_lt_of_witness _ _ env.dag (fun x_1 _ hx => ?_) p hp ?_ ?_
  · simp only [Bool.not_eq_true'] at hx ⊢
    by_cases hxn : x_1.1 = n
    · rw [hxn, markComputed_layers_eq] at hx
      exact Bool.noConfusion hx
    · rw [markComputed_layers_ne _ _ _ _ hxn] at hx
      exact hx
  · show (!(s.layers p.1).hasResult) = true
    rw [hp1, h0]
    rfl
  · show (!((markComputed s n x).layers p.1).hasResult) = false
    rw [hp1, markComputed_layers_eq]
    rfl

/-- A node of the final state is settled: it either has a result, or its
inbound results are not yet all available (in which case another branch is
responsible for it). -/
def settledIn (env : ModelEnv) (t : EngineState) (n : String) : Prop :=
  (t.layers n).hasResult = true ∨ inboundReady env t n = false

/-- Every input-class node already has a result (`predict` seeds them before
traversal). -/
def inputsSeeded (env : ModelEnv) (s : EngineState) : Prop :=
  ∀ n, isInputNode env n = true → (s.layers n).hasResult = true

/-- Structural hypotheses on the DAG used by the traversal argument:
no layer throws; edge lists are mutually consistent; outbound edges stay
inside the DAG and never point at input-class nodes. -/
structure TravHyps (env : ModelEnv) : Prop where
  callOk : CallOk env
  consist : ∀ n i, i ∈ (dagNode env n).inbound → n ∈ (dagNode env i).outbound
  closedOut : ∀ n o, o ∈ (dagNode env n).outbound → o ∈ dagNames env
  noInputOut : ∀ n o, o ∈ (dagNode env n).outbound → isInputNode env o = false

/-- Postcondition of one traversal call on frontier `nodes`, from state `s`
to state `t`: flags only rise; every frontier node is settled (and an input
frontier node's outbound nodes are settled too); and every node that gained
its result during the call has all its outbound nodes settled. -/
structure TravPost (env : ModelEnv) (s t : EngineState) (nodes : List String) :
    Prop where
  le : flagsLe s t
  frontier : ∀ n ∈ nodes, settledIn env t n ∧
    (isInputNode env n = true → ∀ o ∈ (dagNode env n).outbound, settledIn env t o)
  newly : ∀ m, (s.layers m).hasResult = false → (t.layers m).hasResult = true →
    ∀ o ∈ (dagNode env m).outbound, settledIn env t o

theorem inboundReady_false_witness (env : ModelEnv) (s : EngineState) (n : String)
    (h : inboundReady env s n = false) :
    ∃ i ∈ (dagNode env n).inbound, (s.layers i).hasResult = false := by
  unfold inboundReady at h
  rcases List.all_eq_false.mp h with ⟨i, hi, hih⟩
  exact ⟨i, hi, by simpa using hih⟩

theorem inboundReady_true_elem (env : ModelEnv) (s : EngineState) (n i : String)
    (h : inboundReady env s n = true) (hi : i ∈ (dagNode env n).inbound) :
    (s.layers i).hasResult = true := by
  unfold inboundReady at h
  exact List.all_eq_true.mp h i hi

theorem settled_persist (env : ModelEnv)
    (hcons : ∀ n i, i ∈ (dagNode env n).inbound → n ∈ (dagNode env i).outbound)
    {t u : EngineState} {ns2 : List String}
    (h2 : TravPost env t u ns2) (n : String)
    (hs : settledIn env t n) : settledIn env u n := by
  rcases hs with hres | hready
  · exact Or.inl ((h2.le n).1 hres)
  · by_cases hu : (u.layers n).hasResult = true
    · exact Or.inl hu
    · by_cases hur : inboundReady env u n = true
      · obtain ⟨i, hi, hif⟩ := inboundReady_false_witness env t n hready
        have hit : (u.layers i).hasResult = true :=
          inboundReady_true_elem env u n i hur hi
        exact h2.newly i hif hit n (hcons n i hi)
      · simp only [Bool.not_eq_true] at hur
        exact Or.inr hur

theorem travPost_compose (env : ModelEnv)
    (hcons : ∀ n i, i ∈ (dagNode env n).inbound → n ∈ (dagNode env i).outbound)
    {s t u : EngineState} {ns1 ns2 : List String}
    (h1 : TravPost env s t ns1) (h2 : TravPost env t u ns2) :
    TravPost env s u (ns1 ++ ns2) := by
  refine ⟨flagsLe_trans h1.le h2.le, ?_, ?_⟩
  · intro n hn
    rcases List.mem_append.mp hn with hn1 | hn2
    · obtain ⟨ha, hb⟩ := h1.frontier n hn1
      refine ⟨settled_persist env hcons h2 n ha, fun hinp o ho => ?_⟩
      exact settled_persist env hcons h2 o (hb hinp o ho)
    · exact h2.frontier n hn2
  · intro m hm0 hm1 o ho
    by_cases hmt : (t.layers m).hasResult = true
    · exact settled_persist env hcons h2 o (h1.newly m hm0 hmt o ho)
    · simp only [Bool.not_eq_true] at hmt
      exact h2.newly m hmt hm1 o ho

theorem layerCallFor_ok (env : ModelEnv) (hc : CallOk env) (st : EngineState)
    (n : String) (nd : DagNode) : ∃ t, layerCallFor env st n nd = .ok t := by
  unfold layerCallFor
  by_cases hm : (nd.layerClass == "Merge") = true
  · simp only [hm, if_true]
    exact hc n _
  · simp only [Bool.not_eq_true] at hm
    simp only [hm, Bool.false_eq_true, if_false]
    exact hc n _

theorem travPost_nil_frontier (env : ModelEnv) (st : EngineState) :
    TravPost env st st [] :=
  ⟨flagsLe_refl st,
   fun n hn => absurd hn (List.not_mem_nil n),
   fun _ h0 h1 => by rw [h0] at h1; exact Bool.noConfusion h1⟩

theorem travPost_settled_single (env : ModelEnv) (st : EngineState) (n : String)
    (hs : settledIn env st n) (hni : isInputNode env n = false) :
    TravPost env st st [n] := by
  refine ⟨flagsLe_refl st, ?_, fun _ h0 h1 => by rw [h0] at h1; exact Bool.noConfusion h1⟩
  intro m hm
  rw [List.mem_singleton] at hm
  subst hm
  exact ⟨hs, fun hc => absurd hc (by simp [hni])⟩

theorem traverseList_post (env : ModelEnv) (H : TravHyps env) (f c : Nat)
    (Q : String → Prop)
    (helem : ∀ st n, flagsConsistent st → inputsSeeded env st →
      n ∈ dagNames env → Q n → 2 * uncomputedCount env st + c ≤ f →
      TravPost env st (traverseDAG env f st [n]).1 [n]) :
    ∀ (ns : List String) (st : EngineState), flagsConsistent st →
      inputsSeeded env st →
      (∀ n ∈ ns, n ∈ dagNames env) → (∀ n ∈ ns, Q n) →
      2 * uncomputedCount env st + c ≤ f →
      TravPost env st (traverseList env f (st, none) ns).1 ns := by
  intro ns
  induction ns with
  | nil =>
    intro st _ _ _ _ _
    exact travPost_nil_frontier env st
  | cons n rest ihr =>
    intro st hfc hseed hdag hq hfuel
    rw [traverseList_cons]
    have hpost1 := helem st n hfc hseed (hdag n (by simp)) (hq n (by simp)) hfuel
    have herr : (traverseDAG env f st [n]).2 = none :=
      traverse_err_none env H.callOk f st [n]
    have heq : traverseDAG env f st [n] = ((traverseDAG env f st [n]).1, none) :=
      Prod.ext rfl herr
    rw [heq]
    have hsteps : TravSteps st (traverseDAG env f st [n]).1 :=
      travSteps_traverse env f st [n]
    have hle : flagsLe st (traverseDAG env f st [n]).1 := travSteps_flagsLe hsteps
    have hpostRest := ihr (traverseDAG env f st [n]).1
      (travSteps_flagsConsistent hsteps hfc)
      (fun m hm => (hle m).1 (hseed m hm))
      (fun x hx => hdag x (List.mem_cons_of_mem n hx))
      (fun x hx => hq x (List.mem_cons_of_mem n hx))
      (le_trans (by
        have := uncomputedCount_le_of_flagsLe env hle
        omega) hfuel)
    have := travPost_compose env H.consist hpost1 hpostRest
    simpa using this

theorem traverse_post_bundle (env : ModelEnv) (H : TravHyps env) :
    ∀ fuel : Nat,
      (∀ st n, flagsConsistent st → inputsSeeded env st →
        n ∈ dagNames env → isInputNode env n = false →
        2 * uncomputedCount env st + 1 ≤ fuel →
        TravPost env st (traverseDAG env fuel st [n]).1 [n]) ∧
      (∀ st ns, flagsConsistent st → inputsSeeded env st →
        (∀ n ∈ ns, n ∈ dagNames env) → (∀ n ∈ ns, isInputNode env n = false) →
        2 * uncomputedCount env st + 2 ≤ fuel →
        TravPost env st (traverseDAG env fuel st ns).1 ns) ∧
      (∀ st n, flagsConsistent st → inputsSeeded env st → n ∈ dagNames env →
        2 * uncomputedCount env st + 3 ≤ fuel →
        TravPost env st (traverseDAG env fuel st [n]).1 [n]) ∧
      (∀ st ns, flagsConsistent st → inputsSeeded env st →
        (∀ n ∈ ns, n ∈ dagNames env) →
        2 * uncomputedCount env st + 4 ≤ fuel →
        TravPost env st (traverseDAG env fuel st ns).1 ns) := by
  intro fuel
  induction fuel with
  | zero =>
    refine ⟨?_, ?_, ?_, ?_⟩ <;> intro st _ _ _ _ <;> intros <;> omega
  | succ f ih =>
    have hA : ∀ st n, flagsConsistent st → inputsSeeded env st →
        n ∈ dagNames env → isInputNode env n = false →
        2 * uncomputedCount env st + 1 ≤ f + 1 →
        TravPost env st (traverseDAG env (f + 1) st [n]).1 [n] := by
      intro st n hfc hseed hdag hnotin hfuel
      rw [traverseDAG_single]
      have hin2 : ((dagNode env n).layerClass == "InputLayer") = false := hnotin
      simp only [hin2, Bool.false_eq_true, if_false]
      by_cases hv : (st.layers n).visited = true
      · simp only [hv, if_true]
        refine travPost_settled_single env st n (Or.inl ?_) hnotin
        rw [← hfc n]
        exact hv
      · simp only [Bool.not_eq_true] at hv
        simp only [hv, Bool.false_eq_true, if_false]
        by_cases hready : inboundReady env st n = true
        · simp only [hready, Bool.not_true, Bool.false_eq_true, if_false]
          obtain ⟨t, hcall⟩ := layerCallFor_ok env H.callOk st n (dagNode env n)
          rw [hcall]
          have h0 : (st.layers n).hasResult = false := by
            rw [← hfc n]
            exact hv
          have hsteps1 : TravSteps st (markComputed st n t) :=
            TravSteps.step st n t TravSteps.refl hv
          have hle1 : flagsLe st (markComputed st n t) := travSteps_flagsLe hsteps1
          have hu1 : uncomputedCount env (markComputed st n t)
              < uncomputedCount env st :=
            uncomputedCount_markComputed_lt env st n t hdag h0
          have hpostB := ih.2.1 (markComputed st n t) (dagNode env n).outbound
            (travSteps_flagsConsistent hsteps1 hfc)
            (fun m hm => (hle1 m).1 (hseed m hm))
            (fun o ho => H.closedOut n o ho)
            (fun o ho => H.noInputOut n o ho)
            (by omega)
          refine ⟨flagsLe_trans hle1 hpostB.le, ?_, ?_⟩
          · intro m hm
            rw [List.mem_singleton] at hm
            subst hm
            refine ⟨Or.inl ((hpostB.le m).1 ?_), fun hc => absurd hc (by simp [hnotin])⟩
            rw [markComputed_layers_eq]
          · intro m hm0 hm1 o ho
            by_cases hmn : m = n
            · subst hmn
              exact (hpostB.frontier o ho).1
            · have hm0' : ((markComputed st n t).layers m).hasResult = false := by
                rw [markComputed_layers_ne _ _ _ _ hmn]
                exact hm0
              exact hpostB.newly m hm0' hm1 o ho
        · simp only [Bool.not_eq_true] at hready
          simp only [hready, Bool.not_false, if_true]
          exact travPost_settled_single env st n (Or.inr hready) hnotin
    have hB : ∀ st ns, flagsConsistent st → inputsSeeded env st →
        (∀ n ∈ ns, n ∈ dagNames env) → (∀ n ∈ ns, isInputNode env n = false) →
        2 * uncomputedCount env st + 2 ≤ f + 1 →
        TravPost env st (traverseDAG env (f + 1) st ns).1 ns := by
      intro st ns hfc hseed hdag hnotin hfuel
      match ns with
      | [] =>
        rw [traverseDAG_nil]
        exact travPost_nil_frontier env st
      | [n] =>
        exact hA st n hfc hseed (hdag n (by simp)) (hnotin n (by simp)) (by omega)
      | n :: m :: rest =>
        rw [traverseDAG_multi]
        exact traverseList_post env H f 1 (fun x => isInputNode env x = false)
          (fun st' n' hfc' hseed' hdag' hq' hb' => ih.1 st' n' hfc' hseed' hdag' hq' hb')
          (n :: m :: rest) st hfc hseed hdag hnotin (by omega)
    have hC : ∀ st n, flagsConsistent st → inputsSeeded env st →
        n ∈ dagNames env →
        2 * uncomputedCount env st + 3 ≤ f + 1 →
        TravPost env st (traverseDAG env (f + 1) st [n]).1 [n] := by
      intro st n hfc hseed hdag hfuel
      by_cases hin : isInputNode env n = true
      · rw [traverseDAG_single]
        have hin2 : ((dagNode env n).layerClass == "InputLayer") = true := hin
        simp only [hin2, if_true]
        have hpostB := ih.2.1 st (dagNode env n).outbound hfc hseed
          (fun o ho => H.closedOut n o ho)
          (fun o ho => H.noInputOut n o ho)
          (by omega)
        refine ⟨hpostB.le, ?_, hpostB.newly⟩
        intro m hm
        rw [List.mem_singleton] at hm
        subst hm
        refine ⟨Or.inl ((hpostB.le m).1 (hseed m hin)), fun _ o ho => ?_⟩
        exact (hpostB.frontier o ho).1
      · simp only [Bool.not_eq_true] at hin
        exact hA st n hfc hseed hdag hin (by omega)
    have hD : ∀ st ns, flagsConsistent st → inputsSeeded env st →
        (∀ n ∈ ns, n ∈ dagNames env) →
        2 * uncomputedCount env st + 4 ≤ f + 1 →
        TravPost env st (traverseDAG env (f + 1) st ns).1 ns := by
      intro st ns hfc hseed hdag hfuel
      match ns with
      | [] =>
        rw [traverseDAG_nil]
        exact travPost_nil_frontier env st
      | [n] =>
        exact hC st n hfc hseed (hdag n (by simp)) (by omega)
      | n :: m :: rest =>
        rw [traverseDAG_multi]
        exact traverseList_post env H f 3 (fun _ => True)
          (fun st' n' hfc' hseed' hdag' _ hb' => ih.2.2.1 st' n' hfc' hseed' hdag' hb')
          (n :: m :: rest) st hfc hseed hdag (fun _ _ => trivial) (by omega)
    exact ⟨hA, hB, hC, hD⟩

theorem dagNode_mem (env : ModelEnv) (n : String) (hn : n ∈ dagNames env) :
    (n, dagNode env n) ∈ env.dag := by
  unfold dagNames at hn
  obtain ⟨p, hp, hp1⟩ := List.mem_map.mp hn
  unfold dagNode
  cases hf : env.dag.find? (fun q => q.1 == n) with
  | none =>
    rw [List.find?_eq_none] at hf
    exact absurd (by simp [hp1] : (p.1 == n) = true) (hf p hp)
  | some q =>
    have hq : q ∈ env.dag := List.mem_of_find?_eq_some hf
    have hq1 := List.find?_some hf
    have hq1' : q.1 = n := by simpa using hq1
    have : (n, q.2) = q := by
      rw [← hq1']
    rw [this]
    exact hq

theorem dagNode_eq_of_mem (env : ModelEnv) (hnodup : (dagNames env).Nodup)
    {p : String × DagNode} (hp : p ∈ env.dag) : dagNode env p.1 = p.2 := by
  unfold dagNode
  cases hf : env.dag.find? (fun q => q.1 == p.1) with
  | none =>
    rw [List.find?_eq_none] at hf
    exact absurd (by simp : (p.1 == p.1) = true) (hf p hp)
  | some q =>
    have hq : q ∈ env.dag := List.mem_of_find?_eq_some hf
    have hq0 := List.find?_some hf
    have hq1 : q.1 = p.1 := by simpa using hq0
    have : q = p := by
      have hinj := List.inj_on_of_nodup_map (f := Prod.fst) hnodup
      exact hinj hq hp hq1
    rw [this]

theorem traverse_complete (env : ModelEnv) (H : TravHyps env)
    (hnodup : (dagNames env).Nodup) (rank : String → Nat)
    (hrank : ∀ p ∈ env.dag, ∀ i ∈ p.2.inbound, rank i < rank p.1)
    (hclosedIn : ∀ p ∈ env.dag, ∀ i ∈ p.2.inbound, i ∈ dagNames env)
    (hnonempty : ∀ p ∈ env.dag, p.2.layerClass ≠ "InputLayer" → p.2.inbound ≠ [])
    (st : EngineState) (ns : List String)
    (hfc : flagsConsistent st) (hseed : inputsSeeded env st)
    (hdagns : ∀ n ∈ ns, n ∈ dagNames env)
    (hinit : ∀ m, (st.layers m).hasResult = true → isInputNode env m = true)
    (hfrontier : ∀ n, n ∈ dagNames env → isInputNode env n = true → n ∈ ns)
    (fuel : Nat) (hfuel : 2 * uncomputedCount env st + 4 ≤ fuel) :
    ∀ p ∈ env.dag, ((traverseDAG env fuel st ns).1.layers p.1).hasResult = true := by
  have hpost := (traverse_post_bundle env H fuel).2.2.2 st ns hfc hseed hdagns hfuel
  have main : ∀ k, ∀ p ∈ env.dag, rank p.1 < k →
      ((traverseDAG env fuel st ns).1.layers p.1).hasResult = true := by
    intro k
    induction k with
    | zero => intro p _ hk; omega
    | succ k IH =>
      intro p hp hk
      have hnd : dagNode env p.1 = p.2 := dagNode_eq_of_mem env hnodup hp
      by_cases hin : isInputNode env p.1 = true
      · exact (hpost.le p.1).1 (hseed p.1 hin)
      · simp only [Bool.not_eq_true] at hin
        have hncls : p.2.layerClass ≠ "InputLayer" := by
          have : ((dagNode env p.1).layerClass == "InputLayer") = false := hin
          rw [hnd] at this
          exact ne_of_beq_false this
        have hinb : p.2.inbound ≠ [] := hnonempty p hp hncls
        have hallin : ∀ i ∈ p.2.inbound,
            ((traverseDAG env fuel st ns).1.layers i).hasResult = true := by
          intro i hi
          have hiDag : i ∈ dagNames env := hclosedIn p hp i hi
          have hrki : rank i < rank p.1 := hrank p hp i hi
          exact IH (i, dagNode env i) (dagNode_mem env i hiDag)
            (by rw [show (i, dagNode env i).1 = i from rfl]; omega)
        have hready : inboundReady env (traverseDAG env fuel st ns).1 p.1 = true := by
          unfold inboundReady
          rw [hnd]
          exact List.all_eq_true.mpr (fun i hi => hallin i hi)
        by_contra hnp
        simp only [Bool.not_eq_true] at hnp
        obtain ⟨i0, hi0⟩ := List.exists_mem_of_ne_nil p.2.inbound hinb
        have hi0T : ((traverseDAG env fuel st ns).1.layers i0).hasResult = true :=
          hallin i0 hi0
        have hi0in : i0 ∈ (dagNode env p.1).inbound := by rw [hnd]; exact hi0
        have houtp : p.1 ∈ (dagNode env i0).outbound := H.consist p.1 i0 hi0in
        have hsettled : settledIn env (traverseDAG env fuel st ns).1 p.1 := by
          by_cases hiSt : (st.layers i0).hasResult = true
          · have hiInp : isInputNode env i0 = true := hinit i0 hiSt
            have hi0ns : i0 ∈ ns := hfrontier i0 (hclosedIn p hp i0 hi0) hiInp
            exact (hpost.frontier i0 hi0ns).2 hiInp p.1 houtp
          · simp only [Bool.not_eq_true] at hiSt
            exact hpost.newly i0 hiSt hi0T p.1 houtp
        rcases hsettled with h | h
        · rw [hnp] at h
          exact Bool.noConfusion h
        · rw [hready] at h
          exact Bool.noConfusion h
  intro p hp
  exact main (rank p.1 + 1) p hp (by omega)

/-! ## Seeding and reset lemmas -/

theorem seedLayer_layers_eq (st : EngineState) (n : String) (t : Tensor) :
    ((seedLayer st n t).layers n) = ⟨true, true, t⟩ := by
  unfold seedLayer
  simp

theorem seedLayer_layers_ne (st : EngineState) (n m : String) (t : Tensor)
    (h : m ≠ n) : ((seedLayer st n t).layers m) = st.layers m := by
  unfold seedLayer
  simp [h]

theorem seedFold_err_none (env : ModelEnv) (d : List (String × JSValue))
    (hc : CallOk env) :
    ∀ (ns : List String) (st : EngineState),
      (ns.foldl (seedStep env d) (st, none)).2 = none := by
  intro ns
  induction ns with
  | nil => intro st; rfl
  | cons nm rest ih =>
    intro st
    rw [List.foldl_cons]
    obtain ⟨r, hr⟩ := hc nm [seedTensor env d nm]
    have : seedStep env d (st, none) nm = (seedLayer st nm r, none) := by
      unfold seedStep
      rw [hr]
    rw [this]
    exact ih (seedLayer st nm r)

theorem seedFold_layers_not_mem (env : ModelEnv) (d : List (String × JSValue))
    (hc : CallOk env) :
    ∀ (ns : List String) (st : EngineState) (m : String), m ∉ ns →
      ((ns.foldl (seedStep env d) (st, none)).1.layers m) = st.layers m := by
  intro ns
  induction ns with
  | nil => intro st m _; rfl
  | cons nm rest ih =>
    intro st m hm
    rw [List.foldl_cons]
    obtain ⟨r, hr⟩ := hc nm [seedTensor env d nm]
    have hstep : seedStep env d (st, none) nm = (seedLayer st nm r, none) := by
      unfold seedStep
      rw [hr]
    rw [hstep, ih (seedLayer st nm r) m (fun h => hm (List.mem_cons_of_mem nm h)),
      seedLayer_layers_ne st nm m r (fun h => hm (h ▸ List.mem_cons_self nm rest))]

theorem seedFold_layers_mem (env : ModelEnv) (d : List (String × JSValue))
    (hc : CallOk env) :
    ∀ (ns : List String) (st : EngineState) (m : String), m ∈ ns →
      ((ns.foldl (seedStep env d) (st, none)).1.layers m).hasResult = true ∧
      ((ns.foldl (seedStep env d) (st, none)).1.layers m).visited = true := by
  intro ns
  induction ns with
  | nil => intro st m hm; exact absurd hm (List.not_mem_nil m)
  | cons nm rest ih =>
    intro st m hm
    rw [List.foldl_cons]
    obtain ⟨r, hr⟩ := hc nm [seedTensor env d nm]
    have hstep : seedStep env d (st, none) nm = (seedLayer st nm r, none) := by
      unfold seedStep
      rw [hr]
    rw [hstep]
    by_cases hmr : m ∈ rest
    · exact ih (seedLayer st nm r) m hmr
    · have hmn : m = nm := by
        rcases List.mem_cons.mp hm with h | h
        · exact h
        · exact absurd h hmr
      subst hmn
      rw [seedFold_layers_not_mem env d hc rest (seedLayer st m r) m hmr,
        seedLayer_layers_eq]
      exact ⟨rfl, rfl⟩

theorem seedFold_layers_same (env : ModelEnv) (d : List (String × JSValue))
    (hc : CallOk env) :
    ∀ (ns : List String) (st st' : EngineState) (m : String), m ∈ ns →
      ((ns.foldl (seedStep env d) (st, none)).1.layers m)
        = ((ns.foldl (seedStep env d) (st', none)).1.layers m) := by
  intro ns
  induction ns with
  | nil => intro st st' m hm; exact absurd hm (List.not_mem_nil m)
  | cons nm rest ih =>
    intro st st' m hm
    rw [List.foldl_cons, List.foldl_cons]
    obtain ⟨r, hr⟩ := hc nm [seedTensor env d nm]
    have hstep : ∀ s : EngineState,
        seedStep env d (s, none) nm = (seedLayer s nm r, none) := by
      intro s
      unfold seedStep
      rw [hr]
    rw [hstep st, hstep st']
    by_cases hmr : m ∈ rest
    · exact ih (seedLayer st nm r) (seedLayer st' nm r) m hmr
    · have hmn : m = nm := by
        rcases List.mem_cons.mp hm with h | h
        · exact h
        · exact absurd h hmr
      subst hmn
      rw [seedFold_layers_not_mem env d hc rest _ m hmr,
        seedFold_layers_not_mem env d hc rest _ m hmr,
        seedLayer_layers_eq, seedLayer_layers_eq]

theorem seedFold_lwr (env : ModelEnv) (d : List (String × JSValue))
    (hc : CallOk env) :
    ∀ (ns : List String) (st : EngineState),
      (ns.foldl (seedStep env d) (st, none)).1.layersWithResults
        = st.layersWithResults := by
  intro ns
  induction ns with
  | nil => intro st; rfl
  | cons nm rest ih =>
    intro st
    rw [List.foldl_cons]
    obtain ⟨r, hr⟩ := hc nm [seedTensor env d nm]
    have hstep : seedStep env d (st, none) nm = (seedLayer st nm r, none) := by
      unfold seedStep
      rw [hr]
    rw [hstep, ih]
    rfl

theorem seedFold_isRunning (env : ModelEnv) (d : List (String × JSValue))
    (hc : CallOk env) :
    ∀ (ns : List String) (st : EngineState),
      (ns.foldl (seedStep env d) (st, none)).1.isRunning = st.isRunning := by
  intro ns
  induction ns with
  | nil => intro st; rfl
  | cons nm rest ih =>
    intro st
    rw [List.foldl_cons]
    obtain ⟨r, hr⟩ := hc nm [seedTensor env d nm]
    have hstep : seedStep env d (st, none) nm = (seedLayer st nm r, none) := by
      unfold seedStep
      rw [hr]
    rw [hstep, ih]
    rfl

theorem resetState_layers (st : EngineState) (n : String) :
    ((resetState st).layers n)
      = { st.layers n with hasResult := false, visited := false } := rfl

theorem collectOutputs_layers (env : ModelEnv) (s : EngineState) :
    (collectOutputs env s).2.layers = s.layers ∧
    (collectOutputs env s).2.layersWithResults = s.layersWithResults := by
  unfold collectOutputs
  by_cases h1 : (env.modelClass == "Sequential") = true
  · simp only [h1, if_true]
    cases hf : (env.dag.map Prod.snd).find? (fun nd => nd.outbound.isEmpty) with
    | none => exact ⟨rfl, rfl⟩
    | some nd => exact ⟨rfl, rfl⟩
  · simp only [Bool.not_eq_true] at h1
    simp only [h1, Bool.false_eq_true, if_false]
    by_cases h2 : (env.modelClass == "Model") = true
    · simp only [h2, if_true]
      exact ⟨trivial, trivial⟩
    · simp only [Bool.not_eq_true] at h2
      simp only [h2, Bool.false_eq_true, if_false]
      exact ⟨trivial, trivial⟩

/-- The state `predict` holds right before seeding: running guard set, all
per-node flags cleared, log emptied. -/
def preRunState (st : EngineState) : EngineState :=
  resetState { st with isRunning := true }

theorem predict_run_eq (env : ModelEnv) (st : EngineState)
    (d : List (String × JSValue)) (fuel : Nat) (hc : CallOk env)
    (h1 : sortStrings (d.map Prod.fst) = inputNamesOf env)
    (h2 : inputValuesOk env d = true) :
    predict env st d fuel
      = collectOutputs env
          (traverseDAG env fuel (seedInputs env (preRunState st) d).1
            (inputNamesOf env)).1 := by
  unfold predict
  rw [if_neg (fun hne => hne h1)]
  rw [if_neg (by rw [h2]; exact fun hcontr => Bool.noConfusion hcontr)]
  have hseedeq : seedInputs env (resetState { st with isRunning := true }) d
      = ((seedInputs env (preRunState st) d).1, none) := by
    unfold preRunState
    exact Prod.ext rfl (seedFold_err_none env d hc (inputNamesOf env) _)
  rw [hseedeq]
  have htraveq : traverseDAG env fuel (seedInputs env (preRunState st) d).1
        (inputNamesOf env)
      = ((traverseDAG env fuel (seedInputs env (preRunState st) d).1
            (inputNamesOf env)).1, none) :=
    Prod.ext rfl (traverse_err_none env hc fuel _ _)
  show (match traverseDAG env fuel (seedInputs env (preRunState st) d).1
          (inputNamesOf env) with
    | (st2, some e) => (Except.error e, st2)
    | (st2, none) => collectOutputs env st2)
      = collectOutputs env
          (traverseDAG env fuel (seedInputs env (preRunState st) d).1
            (inputNamesOf env)).1
  rw [htraveq]

/-- Structural well-formedness of a built model, as guaranteed by
`_createLayers` for the DAGs it constructs: unique node keys; node records
named after their keys; edge lists closed over the DAG and mutually
consistent; input-class nodes are exactly the entries of the input-tensor
table, sit on no node's outbound list, and every computable node has at
least one inbound edge; the DAG is nonempty. -/
structure ValidModel (env : ModelEnv) : Prop where
  namesNodup : (dagNames env).Nodup
  nameKeys : ∀ p ∈ env.dag, p.2.name = p.1
  closedIn : ∀ p ∈ env.dag, ∀ i ∈ p.2.inbound, i ∈ dagNames env
  closedOut : ∀ p ∈ env.dag, ∀ o ∈ p.2.outbound, o ∈ dagNames env
  consist : ∀ p ∈ env.dag, ∀ i ∈ p.2.inbound, p.1 ∈ (dagNode env i).outbound
  consistRev : ∀ p ∈ env.dag, ∀ o ∈ p.2.outbound, p.1 ∈ (dagNode env o).inbound
  noInputOut : ∀ p ∈ env.dag, ∀ o ∈ p.2.outbound, isInputNode env o = false
  nonInputInbound : ∀ p ∈ env.dag, p.2.layerClass ≠ "InputLayer" →
    p.2.inbound ≠ []
  inputMatch : ∀ p ∈ env.dag,
    (p.2.layerClass = "InputLayer" ↔ p.1 ∈ env.inputTensors.map Prod.fst)
  inputKeysInDag : ∀ nm ∈ env.inputTensors.map Prod.fst, nm ∈ dagNames env
  dagNonempty : env.dag ≠ []

theorem dagNode_not_mem (env : ModelEnv) (n : String)
    (hn : n ∉ dagNames env) : dagNode env n = ⟨"", n, [], []⟩ := by
  unfold dagNode
  cases hf : env.dag.find? (fun q => q.1 == n) with
  | none => rfl
  | some q =>
    have hq : q ∈ env.dag := List.mem_of_find?_eq_some hf
    have hq0 := List.find?_some hf
    have hq1 : q.1 = n := by simpa using hq0
    exact absurd (hq1 ▸ List.mem_map_of_mem Prod.fst hq) hn

theorem vm_consist (env : ModelEnv) (vm : ValidModel env) :
    ∀ n i, i ∈ (dagNode env n).inbound → n ∈ (dagNode env i).outbound := by
  intro n i hi
  by_cases hn : n ∈ dagNames env
  · have hmem := dagNode_mem env n hn
    exact vm.consist (n, dagNode env n) hmem i hi
  · rw [dagNode_not_mem env n hn] at hi
    exact absurd hi (List.not_mem_nil i)

theorem vm_closedOut (env : ModelEnv) (vm : ValidModel env) :
    ∀ n o, o ∈ (dagNode env n).outbound → o ∈ dagNames env := by
  intro n o ho
  by_cases hn : n ∈ dagNames env
  · exact vm.closedOut (n, dagNode env n) (dagNode_mem env n hn) o ho
  · rw [dagNode_not_mem env n hn] at ho
    exact absurd ho (List.not_mem_nil o)

theorem vm_noInputOut (env : ModelEnv) (vm : ValidModel env) :
    ∀ n o, o ∈ (dagNode env n).outbound → isInputNode env o = false := by
  intro n o ho
  by_cases hn : n ∈ dagNames env
  · exact vm.noInputOut (n, dagNode env n) (dagNode_mem env n hn) o ho
  · rw [dagNode_not_mem env n hn] at ho
    exact absurd ho (List.not_mem_nil o)

theorem travHyps_of_valid (env : ModelEnv) (vm : ValidModel env)
    (hc : CallOk env) : TravHyps env :=
  ⟨hc, vm_consist env vm, vm_closedOut env vm, vm_noInputOut env vm⟩

theorem isInput_mem_dag (env : ModelEnv) (n : String)
    (h : isInputNode env n = true) : n ∈ dagNames env := by
  by_contra hn
  unfold isInputNode at h
  rw [dagNode_not_mem env n hn] at h
  exact Bool.noConfusion h

theorem vm_isInput_iff_key (env : ModelEnv) (vm : ValidModel env) (n : String) :
    isInputNode env n = true ↔ n ∈ env.inputTensors.map Prod.fst := by
  constructor
  · intro h
    have hn : n ∈ dagNames env := isInput_mem_dag env n h
    have hmem := dagNode_mem env n hn
    refine (vm.inputMatch (n, dagNode env n) hmem).mp ?_
    unfold isInputNode at h
    exact eq_of_beq h
  · intro h
    have hn : n ∈ dagNames env := vm.inputKeysInDag n h
    have hmem := dagNode_mem env n hn
    have := (vm.inputMatch (n, dagNode env n) hmem).mpr h
    unfold isInputNode
    rw [this]
    rfl

theorem mem_inputNamesOf_iff (env : ModelEnv) (n : String) :
    n ∈ inputNamesOf env ↔ n ∈ env.inputTensors.map Prod.fst := by
  unfold inputNamesOf
  exact (sortStrings_perm (env.inputTensors.map Prod.fst)).mem_iff

theorem travSteps_no_new_visited {s t : EngineState} (h : TravSteps s t)
    (m : String) (hv : (s.layers m).visited = true)
    (hm : m ∈ t.layersWithResults) : m ∈ s.layersWithResults := by
  induction h with
  | refl => exact hm
  | step t n x h hnv ih =>
    rcases List.mem_append.mp hm with hml | hms
    · exact ih hml
    · rw [List.mem_singleton] at hms
      subst hms
      rw [(travSteps_flagsLe h m).2 hv] at hnv
      exact Bool.noConfusion hnv

theorem seeded_hasResult_iff (env : ModelEnv) (hc : CallOk env)
    (st : EngineState) (d : List (String × JSValue)) (m : String) :
    (((seedInputs env (preRunState st) d).1.layers m).hasResult = true
      ↔ m ∈ inputNamesOf env) := by
  unfold seedInputs
  constructor
  · intro h
    by_contra hm
    rw [seedFold_layers_not_mem env d hc _ _ m hm] at h
    unfold preRunState resetState at h
    simp at h
  · intro hm
    exact (seedFold_layers_mem env d hc _ _ m hm).1

theorem seeded_flagsConsistent (env : ModelEnv) (hc : CallOk env)
    (st : EngineState) (d : List (String × JSValue)) :
    flagsConsistent (seedInputs env (preRunState st) d).1 := by
  intro m
  unfold seedInputs
  by_cases hm : m ∈ inputNamesOf env
  · have := seedFold_layers_mem env d hc (inputNamesOf env) (preRunState st) m hm
    rw [this.1, this.2]
  · rw [seedFold_layers_not_mem env d hc _ _ m hm]
    unfold preRunState resetState
    simp

theorem seeded_lwr_nil (env : ModelEnv) (hc : CallOk env)
    (st : EngineState) (d : List (String × JSValue)) :
    (seedInputs env (preRunState st) d).1.layersWithResults = [] := by
  unfold seedInputs
  rw [seedFold_lwr env d hc]
  rfl

theorem seeded_isRunning (env : ModelEnv) (hc : CallOk env)
    (st : EngineState) (d : List (String × JSValue)) :
    (seedInputs env (preRunState st) d).1.isRunning = true := by
  unfold seedInputs
  rw [seedFold_isRunning env d hc]
  rfl

theorem seeded_visited_of_mem (env : ModelEnv) (hc : CallOk env)
    (st : EngineState) (d : List (String × JSValue)) (m : String)
    (hm : m ∈ inputNamesOf env) :
    ((seedInputs env (preRunState st) d).1.layers m).visited = true := by
  unfold seedInputs
  exact (seedFold_layers_mem env d hc _ _ m hm).2

/-- The key facts about the traversal result inside a validated `predict`
run: every DAG node ends with a result; the two flags agree; the computation
log is duplicate-free; every computable node is logged; no input node is
logged; the running guard is still set on the traversal result itself. -/
theorem predict_final_traverse_state (env : ModelEnv) (st : EngineState)
    (d : List (String × JSValue)) (fuel : Nat) (vm : ValidModel env)
    (hc : CallOk env) (rank : String → Nat)
    (hrank : ∀ p ∈ env.dag, ∀ i ∈ p.2.inbound, rank i < rank p.1)
    (hfuel : 2 * env.dag.length + 4 ≤ fuel) :
    (∀ p ∈ env.dag,
      (((traverseDAG env fuel (seedInputs env (preRunState st) d).1
          (inputNamesOf env)).1.layers p.1).hasResult = true)) ∧
    flagsConsistent (traverseDAG env fuel (seedInputs env (preRunState st) d).1
      (inputNamesOf env)).1 ∧
    LwrInv (traverseDAG env fuel (seedInputs env (preRunState st) d).1
      (inputNamesOf env)).1 ∧
    (∀ p ∈ env.dag, isInputNode env p.1 = false →
      p.1 ∈ (traverseDAG env fuel (seedInputs env (preRunState st) d).1
        (inputNamesOf env)).1.layersWithResults) ∧
    (∀ m, isInputNode env m = true →
      m ∉ (traverseDAG env fuel (seedInputs env (preRunState st) d).1
        (inputNamesOf env)).1.layersWithResults) ∧
    (traverseDAG env fuel (seedInputs env (preRunState st) d).1
      (inputNamesOf env)).1.isRunning = true := by
  have H := travHyps_of_valid env vm hc
  have hfc1 := seeded_flagsConsistent env hc st d
  have hseed1 : inputsSeeded env (seedInputs env (preRunState st) d).1 := by
    intro n hn
    rw [seeded_hasResult_iff env hc st d n, mem_inputNamesOf_iff]
    exact (vm_isInput_iff_key env vm n).mp hn
  have hdagns : ∀ n ∈ inputNamesOf env, n ∈ dagNames env := by
    intro n hn
    exact vm.inputKeysInDag n ((mem_inputNamesOf_iff env n).mp hn)
  have hinit : ∀ m, ((seedInputs env (preRunState st) d).1.layers m).hasResult
      = true → isInputNode env m = true := by
    intro m hm
    rw [seeded_hasResult_iff env hc st d m, mem_inputNamesOf_iff] at hm
    exact (vm_isInput_iff_key env vm m).mpr hm
  have hfrontier : ∀ n, n ∈ dagNames env → isInputNode env n = true →
      n ∈ inputNamesOf env := by
    intro n _ hn
    rw [mem_inputNamesOf_iff]
    exact (vm_isInput_iff_key env vm n).mp hn
  have hfuel1 : 2 * uncomputedCount env (seedInputs env (preRunState st) d).1 + 4
      ≤ fuel := by
    have := uncomputedCount_le_length env (seedInputs env (preRunState st) d).1
    omega
  have hcomplete := traverse_complete env H vm.namesNodup rank hrank vm.closedIn
    vm.nonInputInbound (seedInputs env (preRunState st) d).1 (inputNamesOf env)
    hfc1 hseed1 hdagns hinit hfrontier fuel hfuel1
  have hsteps : TravSteps (seedInputs env (preRunState st) d).1
      (traverseDAG env fuel (seedInputs env (preRunState st) d).1
        (inputNamesOf env)).1 :=
    travSteps_traverse env fuel _ _
  refine ⟨hcomplete, travSteps_flagsConsistent hsteps hfc1, ?_, ?_, ?_, ?_⟩
  · refine travSteps_lwrInv hsteps ?_
    unfold LwrInv
    rw [seeded_lwr_nil env hc st d]
    exact ⟨List.nodup_nil, fun n hn => absurd hn (List.not_mem_nil n)⟩
  · intro p hp hpin
    have h0 : (((seedInputs env (preRunState st) d).1.layers p.1).hasResult)
        = false := by
      by_contra hcontr
      simp only [Bool.not_eq_false] at hcontr
      rw [hinit p.1 hcontr] at hpin
      exact Bool.noConfusion hpin
    exact travSteps_newly_logged hsteps p.1 h0 (hcomplete p hp)
  · intro m hm hmem
    have hv : ((seedInputs env (preRunState st) d).1.layers m).visited = true := by
      refine seeded_visited_of_mem env hc st d m ?_
      rw [mem_inputNamesOf_iff]
      exact (vm_isInput_iff_key env vm m).mp hm
    have := travSteps_no_new_visited hsteps m hv hmem
    rw [seeded_lwr_nil env hc st d] at this
    exact absurd this (List.not_mem_nil m)
  · rw [travSteps_isRunning hsteps]
    exact seeded_isRunning env hc st d

/-! ## Claims C1 and C8 — traversal invariants -/

/-- Claim C1: for every valid DAG and every `predict` call with valid
inputs, each computable (non-input) node's layer `call` is invoked exactly
once — it appears exactly once in the `layersWithResults` log pushed right
after every call, while input nodes are never invoked by the traversal —
and every node of the DAG ends the call with `hasResult` true (no stuck
node; re-entry attempts are cut off by the `visited` flag). -/
theorem C1_predict_computes_every_node_once (env : ModelEnv) (st : EngineState)
    (d : List (String × JSValue)) (fuel : Nat) (vm : ValidModel env)
    (hc : CallOk env) (rank : String → Nat)
    (hrank : ∀ p ∈ env.dag, ∀ i ∈ p.2.inbound, rank i < rank p.1)
    (h1 : sortStrings (d.map Prod.fst) = inputNamesOf env)
    (h2 : inputValuesOk env d = true)
    (hfuel : 2 * env.dag.length + 4 ≤ fuel) :
    (∀ p ∈ env.dag, (((predict env st d fuel).2.layers p.1).hasResult = true)) ∧
    (∀ p ∈ env.dag, isInputNode env p.1 = false →
      (predict env st d fuel).2.layersWithResults.count p.1 = 1) ∧
    (∀ p ∈ env.dag, isInputNode env p.1 = true →
      (predict env st d fuel).2.layersWithResults.count p.1 = 0) := by
  rw [predict_run_eq env st d fuel hc h1 h2]
  have hfacts := predict_final_traverse_state env st d fuel vm hc rank hrank hfuel
  obtain ⟨hcompl, hfc, hlwr, hlog, hnolog, _⟩ := hfacts
  have hcoll := collectOutputs_layers env
    (traverseDAG env fuel (seedInputs env (preRunState st) d).1 (inputNamesOf env)).1
  refine ⟨?_, ?_, ?_⟩
  · intro p hp
    rw [hcoll.1]
    exact hcompl p hp
  · intro p hp hpin
    rw [hcoll.2]
    exact List.count_eq_one_of_mem hlwr.1 (hlog p hp hpin)
  · intro p hp hpin
    rw [hcoll.2]
    exact List.count_eq_zero.mpr (hnolog p.1 hpin)

/-- A diamond-with-merge model: `input → {a, b} → m`, where `m` is a Merge
node reachable along two paths. -/
def diamondEnv : ModelEnv :=
  { dag :=
      [("input", ⟨"InputLayer", "input", [], ["a", "b"]⟩),
       ("a", ⟨"Dense", "a", ["input"], ["m"]⟩),
       ("b", ⟨"Dense", "b", ["input"], ["m"]⟩),
       ("m", ⟨"Merge", "m", ["a", "b"], []⟩)],
    inputTensors := [("input", [2])],
    modelClass := "Model",
    call := fun _ _ => .ok tensor0,
    pipelineEnabled := fun _ => false,
    transferFromPipeline := fun _ x => x }

/-- Topological rank of the diamond model. -/
def diamondRank (s : String) : Nat :=
  if s = "input" then 0 else if s = "m" then 2 else 1

theorem diamondEnv_valid : ValidModel diamondEnv := by
  constructor <;> decide

theorem diamondEnv_callOk : CallOk diamondEnv :=
  fun _ _ => ⟨tensor0, rfl⟩

/-- Witness for claim C1, on the diamond model: the Merge node (reachable
along two paths) is computed exactly once, the input node is never invoked
by the traversal, and every node ends with a result. -/
theorem C1_predict_computes_every_node_once_witness :
    (((predict diamondEnv engineState0 [("input", JSValue.f32 [1, 2])] 12).2.layers
        "m").hasResult = true) ∧
    (predict diamondEnv engineState0 [("input", JSValue.f32 [1, 2])]
        12).2.layersWithResults.count "m" = 1 ∧
    (predict diamondEnv engineState0 [("input", JSValue.f32 [1, 2])]
        12).2.layersWithResults.count "input" = 0 := by
  have h := C1_predict_computes_every_node_once diamondEnv engineState0
    [("input", JSValue.f32 [1, 2])] 12 diamondEnv_valid diamondEnv_callOk
    diamondRank (by decide) (by decide) (by decide) (by decide)
  exact ⟨h.1 ("m", ⟨"Merge", "m", ["a", "b"], []⟩) (by decide),
    h.2.1 ("m", ⟨"Merge", "m", ["a", "b"], []⟩) (by decide) (by decide),
    h.2.2 ("input", ⟨"InputLayer", "input", [], ["a", "b"]⟩) (by decide) (by decide)⟩

/-- Claim C8: during a validated `predict` call the `hasResult` and
`visited` flags of every node move together — they are equal in the final
state, each node enters the computed state at most once (the log is
duplicate-free, and exactly once for computable nodes), and at traversal
level flags are never reset mid-call (they only rise, and their agreement is
preserved by every traversal step). -/
theorem C8_flags_rise_together_exactly_once (env : ModelEnv) (st : EngineState)
    (d : List (String × JSValue)) (fuel : Nat) (vm : ValidModel env)
    (hc : CallOk env) (rank : String → Nat)
    (hrank : ∀ p ∈ env.dag, ∀ i ∈ p.2.inbound, rank i < rank p.1)
    (h1 : sortStrings (d.map Prod.fst) = inputNamesOf env)
    (h2 : inputValuesOk env d = true)
    (hfuel : 2 * env.dag.length + 4 ≤ fuel) :
    (∀ n, ((predict env st d fuel).2.layers n).visited
      = ((predict env st d fuel).2.layers n).hasResult) ∧
    (predict env st d fuel).2.layersWithResults.Nodup ∧
    (∀ p ∈ env.dag, isInputNode env p.1 = false →
      (predict env st d fuel).2.layersWithResults.count p.1 = 1) ∧
    (∀ (f1 : Nat) (s1 : EngineState) (ns1 : List String),
      flagsLe s1 (traverseDAG env f1 s1 ns1).1) ∧
    (∀ (f1 : Nat) (s1 : EngineState) (ns1 : List String),
      flagsConsistent s1 → flagsConsistent (traverseDAG env f1 s1 ns1).1) := by
  rw [predict_run_eq env st d fuel hc h1 h2]
  have hfacts := predict_final_traverse_state env st d fuel vm hc rank hrank hfuel
  obtain ⟨hcompl, hfc, hlwr, hlog, hnolog, _⟩ := hfacts
  have hcoll := collectOutputs_layers env
    (traverseDAG env fuel (seedInputs env (preRunState st) d).1 (inputNamesOf env)).1
  refine ⟨?_, ?_, ?_, ?_, ?_⟩
  · intro n
    rw [hcoll.1]
    exact hfc n
  · rw [hcoll.2]
    exact hlwr.1
  · intro p hp hpin
    rw [hcoll.2]
    exact List.count_eq_one_of_mem hlwr.1 (hlog p hp hpin)
  · intro f1 s1 ns1
    exact travSteps_flagsLe (travSteps_traverse env f1 s1 ns1)
  · intro f1 s1 ns1 hcons
    exact travSteps_flagsConsistent (travSteps_traverse env f1 s1 ns1) hcons

/-- Witness for claim C8, on the diamond model: in the final state the two
flags agree at the Merge node, the log is duplicate-free, and the Merge node
is logged exactly once. -/
theorem C8_flags_rise_together_exactly_once_witness :
    ((predict diamondEnv engineState0 [("input", JSValue.f32 [1, 2])] 12).2.layers
        "m").visited
      = ((predict diamondEnv engineState0 [("input", JSValue.f32 [1, 2])]
          12).2.layers "m").hasResult ∧
    (predict diamondEnv engineState0 [("input", JSValue.f32 [1, 2])]
      12).2.layersWithResults.Nodup ∧
    (predict diamondEnv engineState0 [("input", JSValue.f32 [1, 2])]
      12).2.layersWithResults.count "m" = 1 := by
  have h := C8_flags_rise_together_exactly_once diamondEnv engineState0
    [("input", JSValue.f32 [1, 2])] 12 diamondEnv_valid diamondEnv_callOk
    diamondRank (by decide) (by decide) (by decide) (by decide)
  exact ⟨h.1 "m", h.2.1,
    h.2.2.1 ("m", ⟨"Merge", "m", ["a", "b"], []⟩) (by decide) (by decide)⟩

/-! ## Claim C6 — layer errors propagate with the guard left set -/

theorem seedFold_isRunning_any (env : ModelEnv) (d : List (String × JSValue)) :
    ∀ (ns : List String) (acc : EngineState × Option String),
      ((ns.foldl (seedStep env d) acc).1).isRunning = acc.1.isRunning := by
  intro ns
  induction ns with
  | nil => intro acc; rfl
  | cons nm rest ih =>
    intro acc
    rw [List.foldl_cons, ih]
    rcases acc with ⟨s, err⟩
    cases err with
    | some e => rfl
    | none =>
      unfold seedStep
      cases env.call nm [seedTensor env d nm] with
      | error e => rfl
      | ok r => rfl

/-- Claim C6: if a layer's compute operation throws during graph traversal
of a validated `predict` call, the error propagates uncaught out of
`predict` (the call returns that very error), the invocation terminates,
and `isRunning` is left stuck at true — no exit path on this route resets
it. -/
theorem C6_layer_error_leaves_isRunning_true (env : ModelEnv)
    (st st2 : EngineState) (d : List (String × JSValue)) (fuel : Nat)
    (e : String)
    (h1 : sortStrings (d.map Prod.fst) = inputNamesOf env)
    (h2 : inputValuesOk env d = true)
    (hseed : (seedInputs env (preRunState st) d).2 = none)
    (htrav : traverseDAG env fuel (seedInputs env (preRunState st) d).1
        (inputNamesOf env) = (st2, some e)) :
    predict env st d fuel = (.error e, st2) ∧ st2.isRunning = true := by
  constructor
  · unfold predict
    rw [if_neg (fun hne => hne h1)]
    rw [if_neg (by rw [h2]; exact fun hcontr => Bool.noConfusion hcontr)]
    have hseedeq : seedInputs env (resetState { st with isRunning := true }) d
        = ((seedInputs env (preRunState st) d).1, none) :=
      Prod.ext rfl hseed
    rw [hseedeq]
    show (match traverseDAG env fuel (seedInputs env (preRunState st) d).1
            (inputNamesOf env) with
      | (st2, some e) => (Except.error e, st2)
      | (st2, none) => collectOutputs env st2) = (Except.error e, st2)
    rw [htrav]
  · have hst2 : st2 = (traverseDAG env fuel (seedInputs env (preRunState st) d).1
        (inputNamesOf env)).1 := by
      rw [htrav]
    rw [hst2,
      travSteps_isRunning (travSteps_traverse env fuel _ _)]
    show (seedInputs env (preRunState st) d).1.isRunning = true
    unfold seedInputs
    rw [seedFold_isRunning_any env d]
    rfl

/-- A linear model whose middle layer throws on `call` (e.g. a shape
mismatch raised inside the layer kernel). -/
def failingLayerEnv : ModelEnv :=
  { dag :=
      [("input", ⟨"InputLayer", "input", [], ["a"]⟩),
       ("a", ⟨"Dense", "a", ["input"], ["b"]⟩),
       ("b", ⟨"Dense", "b", ["a"], []⟩)],
    inputTensors := [("input", [1])],
    modelClass := "Model",
    call := fun n _ => if n = "a" then .error "shape mismatch" else .ok tensor0,
    pipelineEnabled := fun _ => false,
    transferFromPipeline := fun _ x => x }

/-- Witness for claim C6: on the failing-layer model, `predict` returns the
layer's error and the final state still carries `isRunning = true`. -/
theorem C6_layer_error_leaves_isRunning_true_witness :
    (predict failingLayerEnv engineState0 [("input", JSValue.f32 [1])] 8).1
      = .error "shape mismatch" ∧
    (predict failingLayerEnv engineState0 [("input", JSValue.f32 [1])] 8).2.isRunning
      = true := by
  have h := C6_layer_error_leaves_isRunning_true failingLayerEnv engineState0
    (traverseDAG failingLayerEnv 8
      (seedInputs failingLayerEnv (preRunState engineState0)
        [("input", JSValue.f32 [1])]).1
      (inputNamesOf failingLayerEnv)).1
    [("input", JSValue.f32 [1])] 8 "shape mismatch" (by decide) (by decide)
    (by decide) (Prod.ext rfl (by decide))
  rw [h.1]
  exact ⟨rfl, h.2⟩

/-! ## Claim C5 — invalid input rejected without mutation -/

theorem exists_max_image {α : Type} (f : α → Nat) :
    ∀ (l : List α), l ≠ [] → ∃ p ∈ l, ∀ q ∈ l, f q ≤ f p := by
  intro l
  induction l with
  | nil => intro h; exact absurd rfl h
  | cons a as ih =>
    intro _
    by_cases hnil : as = []
    · subst hnil
      refine ⟨a, List.mem_cons_self a [], fun q hq => ?_⟩
      rw [List.mem_singleton.mp hq]
    · obtain ⟨p, hp, hmax⟩ := ih hnil
      by_cases hle : f a ≤ f p
      · refine ⟨p, List.mem_cons_of_mem a hp, fun q hq => ?_⟩
        rcases List.mem_cons.mp hq with h | h
        · rw [h]; exact hle
        · exact hmax q h
      · refine ⟨a, List.mem_cons_self a as, fun q hq => ?_⟩
        rcases List.mem_cons.mp hq with h | h
        · rw [h]
        · exact le_trans (hmax q h) (by omega)

theorem exists_sink (env : ModelEnv) (vm : ValidModel env) (rank : String → Nat)
    (hrank : ∀ p ∈ env.dag, ∀ i ∈ p.2.inbound, rank i < rank p.1) :
    ∃ nd, (env.dag.map Prod.snd).find? (fun nd => nd.outbound.isEmpty) = some nd := by
  obtain ⟨p, hp, hmax⟩ :=
    exists_max_image (fun q : String × DagNode => rank q.1) env.dag vm.dagNonempty
  have hout : p.2.outbound = [] := by
    cases houtb : p.2.outbound with
    | nil => rfl
    | cons o rest =>
      have ho : o ∈ p.2.outbound := by rw [houtb]; exact List.mem_cons_self o rest
      have hoDag : o ∈ dagNames env := vm.closedOut p hp o ho
      have hoInb : p.1 ∈ (dagNode env o).inbound := vm.consistRev p hp o ho
      have hq := dagNode_mem env o hoDag
      have hlt : rank p.1 < rank o := by
        have := hrank (o, dagNode env o) hq p.1 hoInb
        exact this
      have hle : rank o ≤ rank p.1 := hmax (o, dagNode env o) hq
      omega
  cases hf : (env.dag.map Prod.snd).find? (fun nd => nd.outbound.isEmpty) with
  | some nd => exact ⟨nd, rfl⟩
  | none =>
    rw [List.find?_eq_none] at hf
    have hc := hf p.2 (List.mem_map_of_mem Prod.snd hp)
    rw [hout] at hc
    exact absurd rfl hc

theorem predict_ok_of_valid (env : ModelEnv) (st : EngineState)
    (dgood : List (String × JSValue)) (fuel : Nat) (vm : ValidModel env)
    (hc : CallOk env) (rank : String → Nat)
    (hrank : ∀ p ∈ env.dag, ∀ i ∈ p.2.inbound, rank i < rank p.1)
    (hg1 : sortStrings (dgood.map Prod.fst) = inputNamesOf env)
    (hg2 : inputValuesOk env dgood = true)
    (hclass : env.modelClass = "Sequential" ∨ env.modelClass = "Model") :
    ∃ out, (predict env st dgood fuel).1 = Except.ok out := by
  rw [predict_run_eq env st dgood fuel hc hg1 hg2]
  rcases hclass with hs | hm
  · obtain ⟨nd, hnd⟩ := exists_sink env vm rank hrank
    unfold collectOutputs
    have hbeq : (env.modelClass == "Sequential") = true := by rw [hs]; rfl
    simp only [hbeq, if_true]
    rw [hnd]
    exact ⟨_, rfl⟩
  · unfold collectOutputs
    have hbeq1 : (env.modelClass == "Sequential") = false := by rw [hm]; rfl
    have hbeq2 : (env.modelClass == "Model") = true := by rw [hm]; rfl
    simp only [hbeq1, Bool.false_eq_true, if_false, hbeq2, if_true]
    exact ⟨_, rfl⟩

/-- Claim C5: a `predict` call whose input-name set differs from the
declared inputs, or whose values are not Float32Array buffers, fails with
the corresponding invalid-input error and mutates no engine state — the
layer map, the computation log are exactly as before the call and
`isRunning` is false afterwards — and a subsequent call with correct inputs
succeeds. -/
theorem C5_invalid_input_rejected_without_mutation (env : ModelEnv)
    (st : EngineState) (d dgood : List (String × JSValue)) (fuel : Nat)
    (vm : ValidModel env) (hc : CallOk env) (rank : String → Nat)
    (hrank : ∀ p ∈ env.dag, ∀ i ∈ p.2.inbound, rank i < rank p.1)
    (hbad : ¬ List.Perm (d.map Prod.fst) (env.inputTensors.map Prod.fst) ∨
      (List.Perm (d.map Prod.fst) (env.inputTensors.map Prod.fst) ∧
        inputValuesOk env d = false))
    (hg1 : sortStrings (dgood.map Prod.fst) = inputNamesOf env)
    (hg2 : inputValuesOk env dgood = true)
    (hclass : env.modelClass = "Sequential" ∨ env.modelClass = "Model") :
    ((predict env st d fuel).1 = .error invalidNamesMsg ∨
     (predict env st d fuel).1 = .error invalidTypesMsg) ∧
    (predict env st d fuel).2.layers = st.layers ∧
    (predict env st d fuel).2.layersWithResults = st.layersWithResults ∧
    (predict env st d fuel).2.isRunning = false ∧
    (∃ out, (predict env (predict env st d fuel).2 dgood fuel).1
      = Except.ok out) := by
  rcases hbad with hn | ⟨hn, hv⟩
  · have hn' : sortStrings (d.map Prod.fst) ≠ inputNamesOf env := fun h =>
      hn ((sortStrings_eq_iff_perm (d.map Prod.fst)
        (env.inputTensors.map Prod.fst)).mp h)
    have hfail : predict env st d fuel
        = (.error invalidNamesMsg, ⟨st.layers, st.layersWithResults, false⟩) := by
      unfold predict
      rw [if_pos hn']
    refine ⟨Or.inl (by rw [hfail]), by rw [hfail], by rw [hfail],
      by rw [hfail], ?_⟩
    exact predict_ok_of_valid env (predict env st d fuel).2 dgood fuel vm hc
      rank hrank hg1 hg2 hclass
  · have hn' : sortStrings (d.map Prod.fst) = inputNamesOf env :=
      (sortStrings_eq_iff_perm (d.map Prod.fst)
        (env.inputTensors.map Prod.fst)).mpr hn
    have hfail : predict env st d fuel
        = (.error invalidTypesMsg, ⟨st.layers, st.layersWithResults, false⟩) := by
      unfold predict
      rw [if_neg (fun hne => hne hn')]
      rw [if_pos (by rw [hv]; rfl)]
    refine ⟨Or.inr (by rw [hfail]), by rw [hfail], by rw [hfail],
      by rw [hfail], ?_⟩
    exact predict_ok_of_valid env (predict env st d fuel).2 dgood fuel vm hc
      rank hrank hg1 hg2 hclass

/-- Witness for claim C5, on the diamond model: a call keyed `"x"` fails
with the invalid-names error leaving the state untouched, and the
subsequent correctly-keyed call succeeds. -/
theorem C5_invalid_input_rejected_without_mutation_witness :
    ((predict diamondEnv engineState0 [("x", JSValue.f32 [])] 12).1
        = .error invalidNamesMsg ∨
     (predict diamondEnv engineState0 [("x", JSValue.f32 [])] 12).1
        = .error invalidTypesMsg) ∧
    (predict diamondEnv engineState0 [("x", JSValue.f32 [])] 12).2.isRunning
      = false ∧
    (∃ out,
      (predict diamondEnv
        (predict diamondEnv engineState0 [("x", JSValue.f32 [])] 12).2
        [("input", JSValue.f32 [1, 2])] 12).1 = Except.ok out) := by
  have h := C5_invalid_input_rejected_without_mutation diamondEnv engineState0
    [("x", JSValue.f32 [])] [("input", JSValue.f32 [1, 2])] 12 diamondEnv_valid
    diamondEnv_callOk diamondRank (by decide)
    (Or.inl (by decide))
    (by decide) (by decide) (Or.inr rfl)
  exact ⟨h.1, h.2.2.2.1, h.2.2.2.2⟩

/-! ## Claim C7 — outputs are exactly the sink nodes -/

/-- Claim C7: on successful completion, `predict` returns precisely the
result buffers of the nodes with an empty outbound list: for a Model-class
model every such node's buffer appears keyed by that node's name and
nothing else appears; for a Sequential model — the form in which there is
structurally one output source — the single entry is keyed by the fixed
name `"output"` and holds the first empty-outbound node's buffer. -/
theorem C7_outputs_keyed_by_sink_names (env : ModelEnv) (st : EngineState)
    (d : List (String × JSValue)) (fuel : Nat) (hc : CallOk env)
    (h1 : sortStrings (d.map Prod.fst) = inputNamesOf env)
    (h2 : inputValuesOk env d = true)
    (out : List (String × List Int)) (stF : EngineState)
    (hrun : predict env st d fuel = (Except.ok out, stF)) :
    (env.modelClass = "Model" →
      (∀ p ∈ env.dag, p.2.outbound = [] →
        (p.2.name, ((stF.layers p.2.name).result).data) ∈ out) ∧
      (∀ kv ∈ out, ∃ nd, nd ∈ env.dag.map Prod.snd ∧ nd.outbound = [] ∧
        kv = (nd.name, ((stF.layers nd.name).result).data))) ∧
    (env.modelClass = "Sequential" →
      ∃ nd, (env.dag.map Prod.snd).find? (fun x => x.outbound.isEmpty) = some nd ∧
        out = [("output", ((stF.layers nd.name).result).data)]) := by
  rw [predict_run_eq env st d fuel hc h1 h2] at hrun
  constructor
  · intro hm
    have hbeq1 : (env.modelClass == "Sequential") = false := by rw [hm]; rfl
    have hbeq2 : (env.modelClass == "Model") = true := by rw [hm]; rfl
    unfold collectOutputs at hrun
    simp only [hbeq1, Bool.false_eq_true, if_false, hbeq2, if_true] at hrun
    have hout := congrArg Prod.fst hrun
    have hstF := congrArg Prod.snd hrun
    simp only at hout hstF
    have hout' : ((env.dag.map Prod.snd).filter (fun nd => nd.outbound.isEmpty)).map
        (fun nd => (nd.name,
          (((traverseDAG env fuel (seedInputs env (preRunState st) d).1
            (inputNamesOf env)).1.layers nd.name).result).data)) = out := by
      injection hout
    have hlayers : stF.layers
        = (traverseDAG env fuel (seedInputs env (preRunState st) d).1
            (inputNamesOf env)).1.layers := by
      rw [← hstF]
    constructor
    · intro p hp hout0
      rw [← hout', hlayers]
      refine List.mem_map_of_mem _ (List.mem_filter.mpr ⟨List.mem_map_of_mem Prod.snd hp, ?_⟩)
      rw [hout0]
      rfl
    · intro kv hkv
      rw [← hout'] at hkv
      obtain ⟨nd, hnd, hkveq⟩ := List.mem_map.mp hkv
      obtain ⟨hndmem, hndempty⟩ := List.mem_filter.mp hnd
      refine ⟨nd, hndmem, List.isEmpty_iff.mp hndempty, ?_⟩
      rw [← hkveq, hlayers]
  · intro hs
    have hbeq : (env.modelClass == "Sequential") = true := by rw [hs]; rfl
    unfold collectOutputs at hrun
    simp only [hbeq, if_true] at hrun
    cases hf : (env.dag.map Prod.snd).find? (fun nd => nd.outbound.isEmpty) with
    | none =>
      rw [hf] at hrun
      simp only at hrun
      exact absurd (congrArg Prod.fst hrun) (by simp)
    | some nd =>
      rw [hf] at hrun
      simp only at hrun
      have hout := congrArg Prod.fst hrun
      have hstF := congrArg Prod.snd hrun
      simp only at hout hstF
      have hout' : [("output",
          (((traverseDAG env fuel (seedInputs env (preRunState st) d).1
            (inputNamesOf env)).1.layers nd.name).result).data)] = out := by
        injection hout
      have hlayers : stF.layers
          = (traverseDAG env fuel (seedInputs env (preRunState st) d).1
              (inputNamesOf env)).1.layers := by
        rw [← hstF]
      refine ⟨nd, rfl, ?_⟩
      rw [← hout', hlayers]

/-- Witness for claim C7, on the diamond model (class Model): the single
sink `m` appears in the output keyed by its own name. -/
theorem C7_outputs_keyed_by_sink_names_witness :
    ("m", (((predict diamondEnv engineState0 [("input", JSValue.f32 [1, 2])]
        12).2.layers "m").result).data)
      ∈ [("m", ([] : List Int))] := by
  have hrun : predict diamondEnv engineState0 [("input", JSValue.f32 [1, 2])] 12
      = (Except.ok [("m", ([] : List Int))],
         (predict diamondEnv engineState0 [("input", JSValue.f32 [1, 2])] 12).2) :=
    Prod.ext rfl rfl
  have h := C7_outputs_keyed_by_sink_names diamondEnv engineState0
    [("input", JSValue.f32 [1, 2])] 12 diamondEnv_callOk (by decide) (by decide)
    [("m", ([] : List Int))]
    (predict diamondEnv engineState0 [("input", JSValue.f32 [1, 2])] 12).2 hrun
  exact (h.1 rfl).1 ("m", ⟨"Merge", "m", ["a", "b"], []⟩) (by decide) (by decide)

/-! ## Claim C9 — determinism across successive calls -/

/-- Two engine states that the traversal cannot distinguish: flags agree
everywhere, and results agree wherever a result is available. -/
def Agree (s t : EngineState) : Prop :=
  (∀ n, (s.layers n).hasResult = (t.layers n).hasResult ∧
        (s.layers n).visited = (t.layers n).visited) ∧
  (∀ n, (s.layers n).hasResult = true →
    (s.layers n).result = (t.layers n).result)

theorem all_congr_list {α : Type} (p q : α → Bool) (l : List α)
    (h : ∀ a ∈ l, p a = q a) : l.all p = l.all q := by
  induction l with
  | nil => rfl
  | cons a as ih =>
    rw [List.all_cons, List.all_cons, h a (List.mem_cons_self a as),
      ih (fun x hx => h x (List.mem_cons_of_mem a hx))]

theorem agree_inboundReady (env : ModelEnv) {s t : EngineState}
    (h : Agree s t) (n : String) :
    inboundReady env s n = inboundReady env t n := by
  unfold inboundReady
  exact all_congr_list _ _ _ (fun i _ => (h.1 i).1)

theorem map_congr_list {α β : Type} (f g : α → β) (l : List α)
    (h : ∀ a ∈ l, f a = g a) : l.map f = l.map g := by
  induction l with
  | nil => rfl
  | cons a as ih =>
    rw [List.map_cons, List.map_cons, h a (List.mem_cons_self a as),
      ih (fun x hx => h x (List.mem_cons_of_mem a hx))]

theorem headD_mem {α : Type} (l : List α) (d : α) (h : l ≠ []) :
    l.headD d ∈ l := by
  cases l with
  | nil => exact absurd rfl h
  | cons a as => exact List.mem_cons_self a as

theorem agree_mergeCallInputs (env : ModelEnv) {s t : EngineState}
    (c : String) (inb : List String) (cb : Bool)
    (hres : ∀ i ∈ inb, (s.layers i).result = (t.layers i).result) :
    mergeCallInputs env c inb s cb = mergeCallInputs env c inb t cb := by
  have hinputs : inb.map (fun i => (s.layers i).result)
      = inb.map (fun i => (t.layers i).result) :=
    map_congr_list _ _ _ hres
  have hmap2 : inb.map (fun i =>
        let x := (s.layers i).result
        if x.fromPipeline then env.transferFromPipeline i x
        else if cb then x.hostCopy else x)
      = inb.map (fun i =>
        let x := (t.layers i).result
        if x.fromPipeline then env.transferFromPipeline i x
        else if cb then x.hostCopy else x) :=
    map_congr_list _ _ _ (fun i hi => by rw [hres i hi])
  unfold mergeCallInputs
  rw [hinputs, hmap2]

theorem agree_layerCallFor (env : ModelEnv) {s t : EngineState}
    (h : Agree s t) (n : String) (nd : DagNode)
    (hready : ∀ i ∈ nd.inbound, (s.layers i).hasResult = true)
    (hinb : nd.layerClass ≠ "Merge" → nd.inbound ≠ []) :
    layerCallFor env s n nd = layerCallFor env t n nd := by
  have hres : ∀ i ∈ nd.inbound, (s.layers i).result = (t.layers i).result :=
    fun i hi => h.2 i (hready i hi)
  unfold layerCallFor
  by_cases hm : (nd.layerClass == "Merge") = true
  · simp only [hm, if_true]
    rw [agree_mergeCallInputs env n nd.inbound (copyBeforeCallFlag env nd.inbound) hres]
  · simp only [Bool.not_eq_true] at hm
    simp only [hm, Bool.false_eq_true, if_false]
    have hne : nd.inbound ≠ [] := hinb (ne_of_beq_false hm)
    have hhead : nd.inbound.headD "" ∈ nd.inbound := headD_mem _ _ hne
    unfold regularCallInput
    rw [hres _ hhead]

theorem markComputed_agree {s t : EngineState} (h : Agree s t) (n : String)
    (x : Tensor) : Agree (markComputed s n x) (markComputed t n x) := by
  constructor
  · intro m
    by_cases hmn : m = n
    · subst hmn
      rw [markComputed_layers_eq, markComputed_layers_eq]
      exact ⟨rfl, rfl⟩
    · rw [markComputed_layers_ne _ _ _ _ hmn, markComputed_layers_ne _ _ _ _ hmn]
      exact h.1 m
  · intro m hm
    by_cases hmn : m = n
    · subst hmn
      rw [markComputed_layers_eq, markComputed_layers_eq]
    · rw [markComputed_layers_ne _ _ _ _ hmn] at hm ⊢
      rw [markComputed_layers_ne _ _ _ _ hmn]
      exact h.2 m hm

theorem agree_traverse (env : ModelEnv) (hc : CallOk env)
    (hinb : ∀ n, n ∈ dagNames env → isInputNode env n = false →
      (dagNode env n).inbound ≠ [])
    (hclosedOut : ∀ n o, o ∈ (dagNode env n).outbound → o ∈ dagNames env) :
    ∀ (fuel : Nat) (s t : EngineState) (ns : List String), Agree s t →
      (∀ n ∈ ns, n ∈ dagNames env) →
      Agree (traverseDAG env fuel s ns).1 (traverseDAG env fuel t ns).1 := by
  intro fuel
  induction fuel with
  | zero => intro s t ns h _; exact h
  | succ f ih =>
    have ihList : ∀ (ns : List String) (s t : EngineState), Agree s t →
        (∀ n ∈ ns, n ∈ dagNames env) →
        Agree (traverseList env f (s, none) ns).1
          (traverseList env f (t, none) ns).1 := by
      intro ns
      induction ns with
      | nil => intro s t h _; exact h
      | cons n rest ihr =>
        intro s t h hdag
        rw [traverseList_cons, traverseList_cons]
        have herr1 : traverseDAG env f s [n] = ((traverseDAG env f s [n]).1, none) :=
          Prod.ext rfl (traverse_err_none env hc f s [n])
        have herr2 : traverseDAG env f t [n] = ((traverseDAG env f t [n]).1, none) :=
          Prod.ext rfl (traverse_err_none env hc f t [n])
        rw [herr1, herr2]
        exact ihr (traverseDAG env f s [n]).1 (traverseDAG env f t [n]).1
          (ih s t [n] h (fun x hx => by rw [List.mem_singleton.mp hx]; exact hdag n (by simp)))
          (fun x hx => hdag x (List.mem_cons_of_mem n hx))
    intro s t ns h hdag
    match ns with
    | [] => rw [traverseDAG_nil, traverseDAG_nil]; exact h
    | [n] =>
      rw [traverseDAG_single, traverseDAG_single]
      by_cases hin : ((dagNode env n).layerClass == "InputLayer") = true
      · simp only [hin, if_true]
        exact ih s t (dagNode env n).outbound h
          (fun o ho => hclosedOut n o ho)
      · simp only [Bool.not_eq_true] at hin
        simp only [hin, Bool.false_eq_true, if_false]
        have hvis : (s.layers n).visited = (t.layers n).visited := (h.1 n).2
        by_cases hv : (s.layers n).visited = true
        · simp only [hv, hvis ▸ hv, if_true]
          exact h
        · simp only [Bool.not_eq_true] at hv
          simp only [hv, hvis ▸ hv, Bool.false_eq_true, if_false]
          have hready : inboundReady env s n = inboundReady env t n :=
            agree_inboundReady env h n
          by_cases hr : inboundReady env s n = true
          · simp only [hr, hready ▸ hr, Bool.not_true, Bool.false_eq_true, if_false]
            have hcalleq : layerCallFor env s n (dagNode env n)
                = layerCallFor env t n (dagNode env n) := by
              refine agree_layerCallFor env h n (dagNode env n)
                (fun i hi => inboundReady_true_elem env s n i hr hi) (fun _ => ?_)
              exact hinb n (hdag n (by simp)) hin
            obtain ⟨x, hx⟩ := layerCallFor_ok env hc s n (dagNode env n)
            rw [hx, ← hcalleq, hx]
            exact ih (markComputed s n x) (markComputed t n x)
              (dagNode env n).outbound (markComputed_agree h n x)
              (fun o ho => hclosedOut n o ho)
          · simp only [Bool.not_eq_true] at hr
            simp only [hr, hready ▸ hr, Bool.not_false, if_true]
            exact h
    | n :: m :: rest =>
      rw [traverseDAG_multi, traverseDAG_multi]
      exact ihList (n :: m :: rest) s t h hdag

theorem agree_seeded (env : ModelEnv) (hc : CallOk env) (a b : EngineState)
    (d : List (String × JSValue)) :
    Agree (seedInputs env (preRunState a) d).1 (seedInputs env (preRunState b) d).1 := by
  constructor
  · intro m
    by_cases hm : m ∈ inputNamesOf env
    · have h1 := seedFold_layers_mem env d hc (inputNamesOf env) (preRunState a) m hm
      have h2 := seedFold_layers_mem env d hc (inputNamesOf env) (preRunState b) m hm
      unfold seedInputs
      rw [h1.1, h1.2, h2.1, h2.2]
      exact ⟨rfl, rfl⟩
    · unfold seedInputs
      rw [seedFold_layers_not_mem env d hc _ _ m hm,
        seedFold_layers_not_mem env d hc _ _ m hm]
      exact ⟨rfl, rfl⟩
  · intro m hm
    have hmem : m ∈ inputNamesOf env := (seeded_hasResult_iff env hc a d m).mp hm
    unfold seedInputs
    rw [seedFold_layers_same env d hc (inputNamesOf env) (preRunState a)
      (preRunState b) m hmem]

theorem vm_nonInputInbound (env : ModelEnv) (vm : ValidModel env) :
    ∀ n, n ∈ dagNames env → isInputNode env n = false →
      (dagNode env n).inbound ≠ [] := by
  intro n hn hni
  exact vm.nonInputInbound (n, dagNode env n) (dagNode_mem env n hn)
    (ne_of_beq_false hni)

/-- Claim C9: with fixed weights (a fixed layer-call function) and a valid
input, two successive `predict` calls with identical input data return
bit-identical outputs: the second call, run from whatever state the first
left behind, produces exactly the same output value — no mutable state
carried over from the first call influences the second. -/
theorem C9_predict_deterministic (env : ModelEnv) (st : EngineState)
    (d : List (String × JSValue)) (fuel : Nat) (vm : ValidModel env)
    (hc : CallOk env) (rank : String → Nat)
    (hrank : ∀ p ∈ env.dag, ∀ i ∈ p.2.inbound, rank i < rank p.1)
    (h1 : sortStrings (d.map Prod.fst) = inputNamesOf env)
    (h2 : inputValuesOk env d = true)
    (hfuel : 2 * env.dag.length + 4 ≤ fuel) :
    ∃ out, (predict env st d fuel).1 = Except.ok out ∧
      (predict env (predict env st d fuel).2 d fuel).1 = Except.ok out := by
  have hdagns : ∀ n ∈ inputNamesOf env, n ∈ dagNames env := fun n hn =>
    vm.inputKeysInDag n ((mem_inputNamesOf_iff env n).mp hn)
  have hagree : Agree
      (traverseDAG env fuel (seedInputs env (preRunState st) d).1
        (inputNamesOf env)).1
      (traverseDAG env fuel
        (seedInputs env (preRunState (predict env st d fuel).2) d).1
        (inputNamesOf env)).1 :=
    agree_traverse env hc (vm_nonInputInbound env vm) (vm_closedOut env vm) fuel
      _ _ _ (agree_seeded env hc st (predict env st d fuel).2 d) hdagns
  have hcompl := (predict_final_traverse_state env st d fuel vm hc rank hrank
    hfuel).1
  have hresEq : ∀ p ∈ env.dag,
      (((traverseDAG env fuel (seedInputs env (preRunState st) d).1
        (inputNamesOf env)).1.layers p.1).result)
      = (((traverseDAG env fuel
          (seedInputs env (preRunState (predict env st d fuel).2) d).1
          (inputNamesOf env)).1.layers p.1).result) :=
    fun p hp => hagree.2 p.1 (hcompl p hp)
  have hr1 := predict_run_eq env st d fuel hc h1 h2
  have hr2 := predict_run_eq env (predict env st d fuel).2 d fuel hc h1 h2
  by_cases hs : (env.modelClass == "Sequential") = true
  · obtain ⟨nd, hf⟩ := exists_sink env vm rank hrank
    obtain ⟨p, hp, hpnd⟩ := List.mem_map.mp (List.mem_of_find?_eq_some hf)
    have hname : nd.name = p.1 := by rw [← hpnd]; exact vm.nameKeys p hp
    refine ⟨[("output",
      (((traverseDAG env fuel (seedInputs env (preRunState st) d).1
        (inputNamesOf env)).1.layers nd.name).result).data)], ?_, ?_⟩
    · rw [hr1]
      unfold collectOutputs
      simp only [hs, if_true]
      rw [hf]
    · rw [hr2]
      unfold collectOutputs
      simp only [hs, if_true]
      rw [hf]
      have heq : (((traverseDAG env fuel
          (seedInputs env (preRunState (predict env st d fuel).2) d).1
          (inputNamesOf env)).1.layers nd.name).result)
          = (((traverseDAG env fuel (seedInputs env (preRunState st) d).1
            (inputNamesOf env)).1.layers nd.name).result) := by
        rw [hname]
        exact (hresEq p hp).symm
      show Except.ok [("output",
          (((traverseDAG env fuel
            (seedInputs env (preRunState (predict env st d fuel).2) d).1
            (inputNamesOf env)).1.layers nd.name).result).data)]
        = Except.ok [("output",
          (((traverseDAG env fuel (seedInputs env (preRunState st) d).1
            (inputNamesOf env)).1.layers nd.name).result).data)]
      rw [heq]
  · by_cases hm : (env.modelClass == "Model") = true
    · refine ⟨((env.dag.map Prod.snd).filter (fun nd => nd.outbound.isEmpty)).map
        (fun nd => (nd.name,
          (((traverseDAG env fuel (seedInputs env (preRunState st) d).1
            (inputNamesOf env)).1.layers nd.name).result).data)), ?_, ?_⟩
      · rw [hr1]
        unfold collectOutputs
        simp only [Bool.not_eq_true] at hs
        simp only [hs, Bool.false_eq_true, if_false, hm, if_true]
      · rw [hr2]
        unfold collectOutputs
        simp only [Bool.not_eq_true] at hs
        simp only [hs, Bool.false_eq_true, if_false, hm, if_true]
        have hmapeq : ((env.dag.map Prod.snd).filter
              (fun nd => nd.outbound.isEmpty)).map
            (fun nd => (nd.name,
              (((traverseDAG env fuel
                (seedInputs env (preRunState (predict env st d fuel).2) d).1
                (inputNamesOf env)).1.layers nd.name).result).data))
            = ((env.dag.map Prod.snd).filter
              (fun nd => nd.outbound.isEmpty)).map
            (fun nd => (nd.name,
              (((traverseDAG env fuel (seedInputs env (preRunState st) d).1
                (inputNamesOf env)).1.layers nd.name).result).data)) := by
          refine map_congr_list _ _ _ (fun nd hnd => ?_)
          obtain ⟨p, hp, hpnd⟩ := List.mem_map.mp (List.mem_filter.mp hnd).1
          have hname : nd.name = p.1 := by rw [← hpnd]; exact vm.nameKeys p hp
          rw [hname, (hresEq p hp).symm]
        rw [hmapeq]
    · refine ⟨[], ?_, ?_⟩
      · rw [hr1]
        unfold collectOutputs
        simp only [Bool.not_eq_true] at hs hm
        simp only [hs, hm, Bool.false_eq_true, if_false]
      · rw [hr2]
        unfold collectOutputs
        simp only [Bool.not_eq_true] at hs hm
        simp only [hs, hm, Bool.false_eq_true, if_false]

/-- Witness for claim C9, on the diamond model: running `predict` twice in
a row on the same input yields the same successful output both times. -/
theorem C9_predict_deterministic_witness :
    ∃ out, (predict diamondEnv engineState0 [("input", JSValue.f32 [1, 2])]
        12).1 = Except.ok out ∧
      (predict diamondEnv
        (predict diamondEnv engineState0 [("input", JSValue.f32 [1, 2])] 12).2
        [("input", JSValue.f32 [1, 2])] 12).1 = Except.ok out :=
  C9_predict_deterministic diamondEnv engineState0 [("input", JSValue.f32 [1, 2])]
    12 diamondEnv_valid diamondEnv_callOk diamondRank (by decide) (by decide)
    (by decide) (by decide)
